import Mathlib

/-!
# RapidCFD: LDU addressing functors and GAMG agglomeration reducers

A shallow embedding of
`src/OpenFOAM/matrices/lduMatrix/lduAddressing/lduAddressingFunctors.H` and
`src/OpenFOAM/matrices/lduMatrix/solvers/GAMG/GAMGSolverAgglomerateMatrixF.H`.

Modelling conventions

* `label` (a signed machine integer) is written `Int` throughout and index arithmetic
  is exact; a loop counter stays below its loop bound, so it cannot wrap around. Only
  the face-map encoding (`faceToDiagFunctor`) is modelled on a register of `w` bits.
* `const T*` (a raw device pointer, read without bounds checks) is a total
  function `Int → T`.
* `scalar` is an arbitrary type carrying the algebra an operation needs
  (exact arithmetic); concrete evaluations use `ℚ`.
* a C `for (label i = a; i < b; i++)` loop is `forLabel a b body s`.
* `thrust::transform` is `thrustTransform`, the tasks taken in index order; every task
  writes one slot of its own.
-/

namespace Foam

/-- Runs `n` iterations of a loop body, the counter starting at `i` and stepping by one. -/
def loopFrom {σ : Type} (body : Int → σ → σ) : Nat → Int → σ → σ
  | 0, _, s => s
  | n + 1, i, s => loopFrom body n (i + 1) (body i s)

/-- The loop `for (label i = start; i < stop; i++) s = body i s`: it runs
`max 0 (stop - start)` iterations. -/
def forLabel {σ : Type} (start stop : Int) (body : Int → σ → σ) (s : σ) : σ :=
  loopFrom body (stop - start).toNat start s

/-- The binary functor `sumOp<Type>` of `ops.H`: `x + y`. -/
def sumOp {T : Type} [Add T] (x y : T) : T := x + y

/-- `lduAddressingFunctor::operator()(id, d)`, lines 40-63. -/
def lduAddressingFunctor {T : Type}
    (ownStart neiStart losort : Int → Int)
    (oFun nFun : Int → Int → T) (oOp nOp : T → T → T)
    (id : Int) (d : T) : T :=
  let out := d
  let oStart := ownStart id
  let oSize := ownStart (id + 1) - oStart
  let nStart := neiStart id
  let nSize := neiStart (id + 1) - nStart
  let out := forLabel 0 oSize (fun i out => oOp out (oFun id (oStart + i))) out
  let out := forLabel 0 nSize (fun i out => nOp out (nFun id (losort (nStart + i)))) out
  out

/-- The ascending list of labels `a, a+1, ..., b-1` (empty when `b ≤ a`); used to
state folds over a range of faces. -/
def labelRange (a b : Int) : List Int :=
  (List.range (b - a).toNat).map (fun (k : Nat) => a + (k : Int))

/-- The store `mem[i] = v` through a raw pointer. -/
def writeAt {T : Type} (mem : Int → T) (i : Int) (v : T) : Int → T :=
  fun j => if j = i then v else mem j

/-- The constant `MAX_NEI_SIZE` (line 66). -/
def MAX_NEI_SIZE : Int := 3

/-- The local state of `lduAddressingFastFunctor::operator()(id, d)` when it reaches
its `return`, lines 88-139: the pair `(out, nExtra)`. -/
def lduAddressingFastFunctorState {R : Type} [Zero R] [Add R]
    (ownStart neiStart : Int → Int) (oFun nFun : Int → Int → R)
    (id : Int) (d : R) : R × R :=
  let out := d
  let tmpSum : Int → R := fun _ => 0
  let nExtra : R := 0
  let oStart := ownStart id
  let oSize := ownStart (id + 1) - oStart
  let nStart := neiStart id
  let nSize := neiStart (id + 1) - nStart
  let tmpSum := forLabel 0 MAX_NEI_SIZE
    (fun i tmpSum => if i < oSize then writeAt tmpSum i (oFun id (oStart + i)) else tmpSum) tmpSum
  let tmpSum := forLabel 0 MAX_NEI_SIZE
    (fun i tmpSum =>
      if i < nSize then writeAt tmpSum (i + MAX_NEI_SIZE) (nFun id (nStart + i)) else tmpSum)
    tmpSum
  let out := forLabel 0 (2 * MAX_NEI_SIZE) (fun i out => out + tmpSum i) out
  let out := forLabel MAX_NEI_SIZE oSize (fun i out => out + oFun id (oStart + i)) out
  let nExtra := forLabel MAX_NEI_SIZE nSize (fun i nExtra => nExtra + nFun id (nStart + i)) nExtra
  (out, nExtra)

/-- `lduAddressingFastFunctor::operator()(id, d)`, lines 88-140: it returns `out`;
`nExtra` is dropped. -/
def lduAddressingFastFunctor {R : Type} [Zero R] [Add R]
    (ownStart neiStart : Int → Int) (oFun nFun : Int → Int → R)
    (id : Int) (d : R) : R :=
  (lduAddressingFastFunctorState ownStart neiStart oFun nFun id d).1

/-- `lduAddressingPatchFunctor::operator()(id, s)`, lines 168-184. -/
def lduAddressingPatchFunctor {T : Type}
    (neiStart losort pcells : Int → Int) (fn : Int → Int → T) (op : T → T → T)
    (id : Int) (s : T) : T :=
  let out := s
  let nStart := neiStart id
  let nSize := neiStart (id + 1) - nStart
  let cellI := pcells id
  let out := forLabel 0 nSize (fun i out => op out (fn cellI (losort (nStart + i)))) out
  out

/-- `matrixCoeffsMultiplyFunctor::operator()(cell, face)`, lines 208-212. -/
def matrixCoeffsMultiplyFunctor {T LU : Type} [HMul LU T T]
    (psi : Int → T) (coeffs : Int → LU) (addr : Int → Int) (op : T → T)
    (_cell face : Int) : T :=
  op (coeffs face * psi (addr face))

/-- `matrixCoeffsFunctor::operator()(cell, face)`, lines 230-234. -/
def matrixCoeffsFunctor {T : Type} (coeffs : Int → T) (op : T → T)
    (_cell face : Int) : T :=
  op (coeffs face)

/-- `matrixInterfaceFunctor::operator()(_, id)`, lines 252-256. -/
def matrixInterfaceFunctor {T R : Type} [Neg R] [HMul R T T]
    (coeffs : Int → R) (val : Int → T) (_cell id : Int) : T :=
  (-coeffs id) * val id

/-- Modelled from the spec: the container `gpuList<T>` (its declaration is not among
the sources), reduced to what the operations use: `size()` and the storage behind
`data()` / `begin()`. -/
structure gpuList (T : Type) where
  /-- Number of elements, `size()`. -/
  size : Int
  /-- Storage, `data()`. -/
  data : Int → T

/-- Modelled from the spec: the class `lduAddressing` (declared in `lduAddressing.H`,
which is not among the sources), as the record of the accessors the operations call:
the number of cells, the owner-range table, the neighbour-range table, the
neighbour-order permutation and, per patch, the patch-owning-cell grouping. -/
structure lduAddressing where
  /-- Number of cells, `size()`. -/
  size : Int
  /-- Owner-range table, `ownerStartAddr()`. -/
  ownerStartAddr : gpuList Int
  /-- Neighbour-range table, `losortStartAddr()`. -/
  losortStartAddr : gpuList Int
  /-- Neighbour-order permutation, `losortAddr()`. -/
  losortAddr : gpuList Int
  /-- Distinct owning cells of a patch, `patchSortCells(patchI)`. -/
  patchSortCells : Int → gpuList Int
  /-- Patch faces grouped by owning cell, `patchSortAddr(patchI)`. -/
  patchSortAddr : Int → gpuList Int
  /-- Range table into `patchSortAddr`, `patchSortStartAddr(patchI)`. -/
  patchSortStartAddr : Int → gpuList Int

/-- `thrust::transform(counting(0), counting(0) + n, in, out, op)` under the in-order
schedule: task `i` reads its input element through `rd` and stores `op i input`
through `wr`. Iterators are views of the memory `mem`, so that a permutation iterator
over the output array can be both input and output. -/
def thrustTransform {Mem A B : Type} (n : Int) (rd : Mem → Int → A)
    (wr : Mem → Int → B → Mem) (op : Int → A → B) (mem : Mem) : Mem :=
  forLabel 0 n (fun i mem => wr mem i (op i (rd mem i))) mem

/-- `matrixOperation(in, out, addr, o, n, oo, no)`, lines 259-292. -/
def matrixOperation {T : Type} (inp : Int → T) (out : gpuList T) (addr : lduAddressing)
    (o n : Int → Int → T) (oo no : T → T → T) : gpuList T :=
  let ownStart := addr.ownerStartAddr
  let losortStart := addr.losortStartAddr
  let losort := addr.losortAddr
  { out with
    data := thrustTransform addr.size (fun _ i => inp i) writeAt
      (lduAddressingFunctor ownStart.data losortStart.data losort.data o n oo no) out.data }

/-- `matrixOperation(in, out, addr, o, n)` with the default operators, lines 295-315. -/
def matrixOperationSum {T : Type} [Add T] (inp : Int → T) (out : gpuList T)
    (addr : lduAddressing) (o n : Int → Int → T) : gpuList T :=
  matrixOperation inp out addr o n sumOp sumOp

/-- `matrixFastOperation(in, out, addr, o, n)`, lines 317-344. -/
def matrixFastOperation {R : Type} [Zero R] [Add R] (inp : Int → R) (out : gpuList R)
    (addr : lduAddressing) (o n : Int → Int → R) : gpuList R :=
  let ownStart := addr.ownerStartAddr
  let losortStart := addr.losortStartAddr
  { out with
    data := thrustTransform addr.size (fun _ i => inp i) writeAt
      (lduAddressingFastFunctor ownStart.data losortStart.data o n) out.data }

/-- `matrixPatchOperation(patchI, out, addr, f, o)`, lines 346-376: input and output
are both `make_permutation_iterator(out.begin(), pcells.begin())`. -/
def matrixPatchOperation {T : Type} (patchI : Int) (out : gpuList T) (addr : lduAddressing)
    (f : Int → Int → T) (o : T → T → T) : gpuList T :=
  let pcells := addr.patchSortCells patchI
  let losort := addr.patchSortAddr patchI
  let losortStart := addr.patchSortStartAddr patchI
  { out with
    data := thrustTransform pcells.size (fun mem i => mem (pcells.data i))
      (fun mem i v => writeAt mem (pcells.data i) v)
      (lduAddressingPatchFunctor losortStart.data losort.data pcells.data f o) out.data }

/-- `matrixPatchOperation(patchI, out, addr, f)` with the default operator, lines 378-395. -/
def matrixPatchOperationSum {T : Type} [Add T] (patchI : Int) (out : gpuList T)
    (addr : lduAddressing) (f : Int → Int → T) : gpuList T :=
  matrixPatchOperation patchI out addr f sumOp

/-- `GAMGSolverAgglomerateAsymFunctor::operator()(in, t)`, lines 55-83. -/
def GAMGSolverAgglomerateAsymFunctor {R : Type} [Add R]
    (uf lf : Int → R) (flip : Int → Bool) (sort : Int → Int)
    (inp : R × R) (t : Int × Int) : R × R :=
  let uc := inp.1
  let lc := inp.2
  let start := t.1
  let end_ := t.2
  forLabel start end_
    (fun i (acc : R × R) =>
      let uc := acc.1
      let lc := acc.2
      let index := sort i
      let flipVal := flip index
      let ufVal := uf index
      let lfVal := lf index
      if !flipVal then (uc + ufVal, lc + lfVal) else (uc + lfVal, lc + ufVal))
    (uc, lc)

/-- `GAMGSolverAgglomerateDiagAsymFunctor::operator()(s, t)`, lines 105-120. -/
def GAMGSolverAgglomerateDiagAsymFunctor {R : Type} [Add R]
    (uf lf : Int → R) (sort : Int → Int) (s : R) (t : Int × Int) : R :=
  let out := s
  let start := t.1
  let end_ := t.2
  let out := forLabel start end_
    (fun i out =>
      let index := sort i
      out + (uf index + lf index)) out
  out

/-- `GAMGSolverAgglomerateSymFunctor::operator()(s, t)`, lines 138-152. -/
def GAMGSolverAgglomerateSymFunctor {R : Type} [Add R]
    (ff : Int → R) (sort : Int → Int) (s : R) (t : Int × Int) : R :=
  let out := s
  let start := t.1
  let end_ := t.2
  let out := forLabel start end_ (fun i out => out + ff (sort i)) out
  out

/-- `GAMGSolverAgglomerateDiagSymFunctor::operator()(s, t)`, lines 170-184. -/
def GAMGSolverAgglomerateDiagSymFunctor {R : Type} [Semiring R]
    (ff : Int → R) (sort : Int → Int) (s : R) (t : Int × Int) : R :=
  let out := s
  let start := t.1
  let end_ := t.2
  let out := forLabel start end_ (fun i out => out + 2 * ff (sort i)) out
  out

/-! ## Bounds-checked model of the generic functor -/

/-- A bounds-checked read `tbl[i]` of a table held as a list: `none` when `i` is
negative or not below the length. -/
def readAt (tbl : List Int) (i : Int) : Option Int :=
  if 0 ≤ i then tbl[i.toNat]? else none

/-- The raw pointer to a table held as a list: inside the table it reads the entry
(outside it, where the source has undefined behaviour, this model reads `0`). -/
def tablePtr (tbl : List Int) : Int → Int := fun i => (readAt tbl i).getD 0

/-- Runs `n` iterations of a loop body that may fail, the counter starting at `i`. -/
def loopFromChecked {σ : Type} (body : Int → σ → Option σ) : Nat → Int → σ → Option σ
  | 0, _, s => some s
  | n + 1, i, s => (body i s).bind (fun s2 => loopFromChecked body n (i + 1) s2)

/-- The loop `for (label i = start; i < stop; i++)` with a body that may fail. -/
def forLabelChecked {σ : Type} (start stop : Int) (body : Int → σ → Option σ) (s : σ) :
    Option σ :=
  loopFromChecked body (stop - start).toNat start s

/-- `lduAddressingFunctor::operator()(id, d)`, lines 40-63, with every table read
bounds-checked and every face index handed to an accessor checked against `[0, M)`:
the result is `none` as soon as a check fails. -/
def lduAddressingFunctorChecked {T : Type} (M : Int) (ownStart neiStart losort : List Int)
    (oFun nFun : Int → Int → T) (oOp nOp : T → T → T) (id : Int) (d : T) : Option T :=
  (readAt ownStart id).bind fun oStart =>
  (readAt ownStart (id + 1)).bind fun oEnd =>
  let oSize := oEnd - oStart
  (readAt neiStart id).bind fun nStart =>
  (readAt neiStart (id + 1)).bind fun nEnd =>
  let nSize := nEnd - nStart
  (forLabelChecked 0 oSize
    (fun i out =>
      let face := oStart + i
      if 0 ≤ face ∧ face < M then some (oOp out (oFun id face)) else none) d).bind fun out =>
  forLabelChecked 0 nSize
    (fun i out =>
      (readAt losort (nStart + i)).bind fun face =>
      if 0 ≤ face ∧ face < M then some (nOp out (nFun id face)) else none) out

/-! ## Read-tracing model of the agglomeration reducers -/

/-- One read of an element of an array held by an agglomeration reducer: the array and
the index read. -/
inductive ArrayRead where
  | sort (i : Int)
  | flip (i : Int)
  | uf (i : Int)
  | lf (i : Int)
  | ff (i : Int)
  deriving DecidableEq

/-- `GAMGSolverAgglomerateAsymFunctor::operator()(in, t)`, lines 55-83, returning
beside its value the array reads it performed, in order. -/
def GAMGSolverAgglomerateAsymFunctorTraced {R : Type} [Add R]
    (uf lf : Int → R) (flip : Int → Bool) (sort : Int → Int)
    (inp : R × R) (t : Int × Int) : (R × R) × List ArrayRead :=
  let uc := inp.1
  let lc := inp.2
  let start := t.1
  let end_ := t.2
  forLabel start end_
    (fun i (acc : (R × R) × List ArrayRead) =>
      let uc := acc.1.1
      let lc := acc.1.2
      let index := sort i
      let flipVal := flip index
      let ufVal := uf index
      let lfVal := lf index
      let reads := acc.2 ++ [ArrayRead.sort i, ArrayRead.flip index, ArrayRead.uf index,
        ArrayRead.lf index]
      if !flipVal then ((uc + ufVal, lc + lfVal), reads) else ((uc + lfVal, lc + ufVal), reads))
    ((uc, lc), [])

/-- `GAMGSolverAgglomerateDiagAsymFunctor::operator()(s, t)`, lines 105-120, returning
beside its value the array reads it performed, in order. -/
def GAMGSolverAgglomerateDiagAsymFunctorTraced {R : Type} [Add R]
    (uf lf : Int → R) (sort : Int → Int) (s : R) (t : Int × Int) : R × List ArrayRead :=
  let out := s
  let start := t.1
  let end_ := t.2
  forLabel start end_
    (fun i (acc : R × List ArrayRead) =>
      let index := sort i
      (acc.1 + (uf index + lf index),
        acc.2 ++ [ArrayRead.sort i, ArrayRead.uf index, ArrayRead.lf index]))
    (out, [])

/-- `GAMGSolverAgglomerateSymFunctor::operator()(s, t)`, lines 138-152, returning
beside its value the array reads it performed, in order. -/
def GAMGSolverAgglomerateSymFunctorTraced {R : Type} [Add R]
    (ff : Int → R) (sort : Int → Int) (s : R) (t : Int × Int) : R × List ArrayRead :=
  let out := s
  let start := t.1
  let end_ := t.2
  forLabel start end_
    (fun i (acc : R × List ArrayRead) =>
      (acc.1 + ff (sort i), acc.2 ++ [ArrayRead.sort i, ArrayRead.ff (sort i)]))
    (out, [])

/-- `GAMGSolverAgglomerateDiagSymFunctor::operator()(s, t)`, lines 170-184, returning
beside its value the array reads it performed, in order. -/
def GAMGSolverAgglomerateDiagSymFunctorTraced {R : Type} [Semiring R]
    (ff : Int → R) (sort : Int → Int) (s : R) (t : Int × Int) : R × List ArrayRead :=
  let out := s
  let start := t.1
  let end_ := t.2
  forLabel start end_
    (fun i (acc : R × List ArrayRead) =>
      (acc.1 + 2 * ff (sort i), acc.2 ++ [ArrayRead.sort i, ArrayRead.ff (sort i)]))
    (out, [])

/-! ## Fixed-width labels and the face-map encoding -/

/-- Smallest value of a signed two's-complement `label` of `w` bits. -/
def labelMin (w : Nat) : Int := -(2 ^ (w - 1))

/-- Largest value of a signed two's-complement `label` of `w` bits. -/
def labelMax (w : Nat) : Int := 2 ^ (w - 1) - 1

/-- The value a signed two's-complement register of `w` bits holds after an exact
result `x` is stored in it: `x` itself when it is representable, wrapped otherwise. -/
def wrapLabel (w : Nat) (x : Int) : Int := (x + 2 ^ (w - 1)) % 2 ^ w - 2 ^ (w - 1)

/-- `luGAMGNonNegative::operator()(x)`, lines 8-12. -/
def luGAMGNonNegative (x : Int) : Bool := decide (x ≥ 0)

/-- `luGAMGNegative::operator()(x)`, lines 17-21. -/
def luGAMGNegative (x : Int) : Bool := decide (x < 0)

/-- `faceToDiagFunctor::operator()(n)`, lines 27-31, on labels of `w` bits: `-1 - n`
computed in the register. -/
def faceToDiagFunctor (w : Nat) (n : Int) : Int := wrapLabel w (-1 - n)

/-! ## Reference computations named by the specification -/

/-- The straightforward face-loop matrix-vector product the specification compares
with: `out[c] = diag[c] * psi[c]` for every cell, then for every face `f`
`out[owner f] += upper[f] * psi[neighbour f]` and
`out[neighbour f] += lower[f] * psi[owner f]`. -/
def referenceAmul {R : Type} [Zero R] [Add R] [Mul R] (N M : Int)
    (owner neighbour : Int → Int) (diag upper lower psi : Int → R) : Int → R :=
  let out := forLabel 0 N (fun c out => writeAt out c (diag c * psi c)) (fun _ => 0)
  forLabel 0 M
    (fun f out =>
      let out := writeAt out (owner f) (out (owner f) + upper f * psi (neighbour f))
      writeAt out (neighbour f) (out (neighbour f) + lower f * psi (owner f)))
    out

/-- The naive sequential accumulation the specification compares the patch reduction
with: `for each patch face f: out[faceCells[f]] += fn(faceCells[f], f)`. -/
def naivePatchAccumulate {R : Type} [Add R] (P : Int) (faceCells : Int → Int)
    (fn : Int → Int → R) (out : Int → R) : Int → R :=
  forLabel 0 P
    (fun f out => writeAt out (faceCells f) (out (faceCells f) + fn (faceCells f) f)) out

/-! ## Concrete inputs used by the examples -/

/-- The addressing of a mesh with four cells and two internal faces, face 0 joining
cells 0 and 3 and face 1 joining cells 1 and 2: owner-range table `[0, 1, 2, 2, 2]`,
neighbour-range table `[0, 0, 0, 1, 2]`, neighbour-order permutation `[1, 0]`;
no patch. -/
def exampleAddr : lduAddressing where
  size := 4
  ownerStartAddr := ⟨5, fun i => if i ≤ 0 then 0 else if i = 1 then 1 else 2⟩
  losortStartAddr := ⟨5, fun i => if i ≤ 2 then 0 else if i = 3 then 1 else 2⟩
  losortAddr := ⟨2, fun i => if i = 0 then 1 else 0⟩
  patchSortCells := fun _ => ⟨0, fun _ => 0⟩
  patchSortAddr := fun _ => ⟨0, fun _ => 0⟩
  patchSortStartAddr := fun _ => ⟨1, fun _ => 0⟩

/-- Owner cell of each face of `exampleAddr`: `[0, 1]`. -/
def exampleOwner : Int → Int := fun f => if f = 0 then 0 else 1

/-- Neighbour cell of each face of `exampleAddr`: `[3, 2]`. -/
def exampleNeighbour : Int → Int := fun f => if f = 0 then 3 else 2

/-- Lower coefficients of the example matrix: `[10, 20]`. -/
def exampleLower : Int → ℚ := fun f => if f = 0 then 10 else 20

/-- Upper coefficients of the example matrix: `[1, 2]`. -/
def exampleUpper : Int → ℚ := fun f => if f = 0 then 1 else 2

/-- Neighbour-range table of a single cell 0 whose neighbour range is `[0, 4)`. -/
def exampleNeiStart4 : Int → Int := fun i => if i ≤ 0 then 0 else 4

/-- Diagonal coefficients of the example matrix: `5` in every cell. -/
def exampleDiag : Int → ℚ := fun _ => 5

/-- Field values of the example: `[1, 2, 3, 4]`. -/
def examplePsi : Int → ℚ := fun c => if c = 0 then 1 else if c = 1 then 2 else if c = 2 then 3 else 4

/-- The addressing of a mesh with three cells and one patch of three boundary faces
owned by cells `[2, 0, 2]`: distinct owning cells `[0, 2]`, range table `[0, 1, 3]`,
patch faces grouped by owning cell `[1, 0, 2]`; no internal face. -/
def examplePatchAddr : lduAddressing where
  size := 3
  ownerStartAddr := ⟨4, fun _ => 0⟩
  losortStartAddr := ⟨4, fun _ => 0⟩
  losortAddr := ⟨0, fun _ => 0⟩
  patchSortCells := fun _ => ⟨2, fun g => if g = 0 then 0 else 2⟩
  patchSortAddr := fun _ => ⟨3, fun j => if j = 0 then 1 else if j = 1 then 0 else 2⟩
  patchSortStartAddr := fun _ => ⟨3, fun g => if g ≤ 0 then 0 else if g = 1 then 1 else 3⟩

/-- Owning cell of each boundary face of the patch of `examplePatchAddr`: `[2, 0, 2]`. -/
def exampleFaceCells : Int → Int := fun f => if f = 1 then 0 else 2

/-- A boundary-face accessor for the examples: `fn(c, f) = 10 * c + f`. -/
def exampleFn : Int → Int → ℚ := fun c f => 10 * (c : ℚ) + (f : ℚ)

/-- Owner-range table of a cell without owner faces: `0` everywhere. -/
def exampleOwnStart0 : Int → Int := fun _ => 0

/-- An accessor contributing `0` at every face. -/
def exampleZeros : Int → Int → ℚ := fun _ _ => 0

/-- An accessor contributing `1` at every face. -/
def exampleOnes : Int → Int → ℚ := fun _ _ => 1

/-- A coarse-face range table for two coarse faces over three fine faces: `[0, 1, 3]`. -/
def exampleCoarseStart : Int → Int := fun c => if c ≤ 0 then 0 else if c = 1 then 1 else 3

/-- A fine-face sort array listing the fine faces `[5, 3, 4]`. -/
def exampleSort : Int → Int := fun i => if i = 0 then 5 else if i = 1 then 3 else 4

/-! ## Lemmas on loops, sums and scatters -/

theorem loopFrom_succ_last {σ : Type} (body : Int → σ → σ) (n : Nat) (i : Int) (s : σ) :
    loopFrom body (n + 1) i s = body (i + n) (loopFrom body n i s) := by
  induction n generalizing i s with
  | zero => simp [loopFrom]
  | succ k ih =>
    rw [loopFrom, ih (i + 1) (body i s), loopFrom]
    have h : i + 1 + (k : Int) = i + ((k + 1 : Nat) : Int) := by push_cast; ring
    rw [h]

theorem loopFrom_shift {σ : Type} (body : Int → σ → σ) (n : Nat) (i k : Int) (s : σ) :
    loopFrom (fun j => body (k + j)) n i s = loopFrom body n (k + i) s := by
  induction n generalizing i s with
  | zero => rfl
  | succ m ih =>
    simp only [loopFrom]
    rw [ih (i + 1) (body (k + i) s), add_assoc]

theorem loopFrom_eq_foldl {σ : Type} (body : Int → σ → σ) (n : Nat) (i : Int) (s : σ) :
    loopFrom body n i s
      = ((List.range n).map (fun (k : Nat) => i + (k : Int))).foldl (fun acc j => body j acc) s := by
  induction n with
  | zero => rfl
  | succ m ih =>
    rw [loopFrom_succ_last, ih, List.range_succ, List.map_append, List.foldl_append]
    simp

theorem forLabel_eq_foldl {σ : Type} (a b : Int) (body : Int → σ → σ) (s : σ) :
    forLabel a b body s = (labelRange a b).foldl (fun acc j => body j acc) s := by
  unfold forLabel labelRange
  exact loopFrom_eq_foldl body _ a s

theorem forLabel_shift {σ : Type} (a n : Int) (body : Int → σ → σ) (s : σ) :
    forLabel 0 n (fun i => body (a + i)) s = forLabel a (a + n) body s := by
  unfold forLabel
  rw [loopFrom_shift]
  simp

theorem Ico_label_succ_right (a : Int) (n : Nat) :
    Finset.Ico a (a + ((n + 1 : Nat) : Int)) = insert (a + (n : Int)) (Finset.Ico a (a + n)) := by
  ext x
  simp only [Finset.mem_Ico, Finset.mem_insert]
  push_cast
  omega

theorem loopFrom_add {R : Type} [AddCommMonoid R] (g : Int → R) (n : Nat) (a : Int) (s : R) :
    loopFrom (fun i out => out + g i) n a s = s + ∑ i in Finset.Ico a (a + n), g i := by
  induction n with
  | zero => simp [loopFrom]
  | succ m ih =>
    rw [loopFrom_succ_last, ih, Ico_label_succ_right, Finset.sum_insert (by simp), add_assoc,
      add_comm (g _)]

/-- A summing loop over a Int range adds the sum of its terms over `[a, b)`. -/
theorem forLabel_add {R : Type} [AddCommMonoid R] (g : Int → R) (a b : Int) (s : R) :
    forLabel a b (fun i out => out + g i) s = s + ∑ i in Finset.Ico a b, g i := by
  unfold forLabel
  rw [loopFrom_add]
  rcases le_total a b with h | h
  · rw [Int.toNat_of_nonneg (by omega)]
    congr 3
    ring
  · rw [Int.toNat_of_nonpos (by omega)]
    simp [Finset.Ico_eq_empty_of_le h]

theorem forLabel_of_le {σ : Type} (a b : Int) (h : b ≤ a) (body : Int → σ → σ) (s : σ) :
    forLabel a b body s = s := by
  unfold forLabel
  rw [Int.toNat_of_nonpos (by omega)]
  rfl

theorem sum_Ico_label_shift {R : Type} [AddCommMonoid R] (g : Int → R) (a n : Int) :
    ∑ i in Finset.Ico 0 n, g (a + i) = ∑ f in Finset.Ico a (a + n), g f := by
  have h := forLabel_shift a n (fun i (out : R) => out + g i) 0
  rw [forLabel_add, forLabel_add] at h
  simpa using h

theorem loopFrom_pair {A B : Type} (f : Int → A → A) (g : Int → B → B) (n : Nat) (i : Int)
    (a : A) (b : B) :
    loopFrom (fun j (acc : A × B) => (f j acc.1, g j acc.2)) n i (a, b)
      = (loopFrom f n i a, loopFrom g n i b) := by
  induction n generalizing i a b with
  | zero => rfl
  | succ m ih => simp only [loopFrom, ih]

theorem forLabel_pair {A B : Type} (f : Int → A → A) (g : Int → B → B) (start stop : Int)
    (a : A) (b : B) :
    forLabel start stop (fun j (acc : A × B) => (f j acc.1, g j acc.2)) (a, b)
      = (forLabel start stop f a, forLabel start stop g b) :=
  loopFrom_pair f g _ start a b

theorem forLabel_zero_six {σ : Type} (body : Int → σ → σ) (s : σ) :
    forLabel 0 6 body s = body 5 (body 4 (body 3 (body 2 (body 1 (body 0 s))))) := by
  simp [forLabel, loopFrom]

theorem loopFrom_guardedFill {R : Type} (m k : Int) (g : Int → R) (n : Nat) (t : Int → R)
    (j : Int) :
    loopFrom (fun i tmp => if i < m then writeAt tmp (i + k) (g i) else tmp) n 0 t j
      = if k ≤ j ∧ j < k + n ∧ j - k < m then g (j - k) else t j := by
  induction n with
  | zero =>
    have h : ¬ (k ≤ j ∧ j < k + ((0 : Nat) : Int) ∧ j - k < m) := by push_cast; omega
    rw [if_neg h]
    rfl
  | succ p ih =>
    rw [loopFrom_succ_last]
    by_cases hm : (0 : Int) + p < m
    · simp only [hm, if_true, writeAt]
      by_cases hj : j = 0 + (p : Int) + k
      · subst hj
        have h : k ≤ 0 + (p : Int) + k ∧ 0 + (p : Int) + k < k + ((p + 1 : Nat) : Int)
            ∧ 0 + (p : Int) + k - k < m := by push_cast; omega
        rw [if_pos rfl, if_pos h]
        congr 1
        omega
      · rw [if_neg hj, ih]
        by_cases h : k ≤ j ∧ j < k + (p : Int) ∧ j - k < m
        · rw [if_pos h, if_pos (by push_cast; omega)]
        · rw [if_neg h, if_neg (by push_cast; omega)]
    · simp only [hm, if_false]
      rw [ih]
      by_cases h : k ≤ j ∧ j < k + (p : Int) ∧ j - k < m
      · rw [if_pos h, if_pos (by push_cast; omega)]
      · rw [if_neg h, if_neg (by push_cast; omega)]

theorem forLabel_guardedFill {R : Type} (m k : Int) (g : Int → R) (t : Int → R) (j : Int) :
    forLabel 0 3 (fun i tmp => if i < m then writeAt tmp (i + k) (g i) else tmp) t j
      = if k ≤ j ∧ j < k + 3 ∧ j - k < m then g (j - k) else t j := by
  unfold forLabel
  rw [show ((3 : Int) - 0).toNat = 3 by decide, loopFrom_guardedFill]
  rfl

theorem forLabel_guardedFill_zero {R : Type} (m : Int) (g : Int → R) (t : Int → R) (j : Int) :
    forLabel 0 3 (fun i tmp => if i < m then writeAt tmp i (g i) else tmp) t j
      = if 0 ≤ j ∧ j < 3 ∧ j < m then g j else t j := by
  have h := forLabel_guardedFill m 0 g t j
  simpa using h

theorem lduAddressingFastFunctorState_unrolled {R : Type} [Zero R] [Add R]
    (ownStart neiStart : Int → Int) (oFun nFun : Int → Int → R) (id : Int) (d : R) :
    lduAddressingFastFunctorState ownStart neiStart oFun nFun id d
      = (forLabel 3 (ownStart (id + 1) - ownStart id)
            (fun i out => out + oFun id (ownStart id + i))
            (d + (if 0 < ownStart (id + 1) - ownStart id then oFun id (ownStart id + 0) else 0)
               + (if 1 < ownStart (id + 1) - ownStart id then oFun id (ownStart id + 1) else 0)
               + (if 2 < ownStart (id + 1) - ownStart id then oFun id (ownStart id + 2) else 0)
               + (if 0 < neiStart (id + 1) - neiStart id then nFun id (neiStart id + 0) else 0)
               + (if 1 < neiStart (id + 1) - neiStart id then nFun id (neiStart id + 1) else 0)
               + (if 2 < neiStart (id + 1) - neiStart id then nFun id (neiStart id + 2) else 0)),
         forLabel 3 (neiStart (id + 1) - neiStart id)
            (fun i nExtra => nExtra + nFun id (neiStart id + i)) 0) := by
  have h6 : (2 : Int) * 3 = 6 := by norm_num
  unfold lduAddressingFastFunctorState
  simp only [MAX_NEI_SIZE]
  rw [h6, forLabel_zero_six]
  simp only [forLabel_guardedFill (neiStart (id + 1) - neiStart id) 3
      (fun i => nFun id (neiStart id + i)),
    forLabel_guardedFill_zero (ownStart (id + 1) - ownStart id)
      (fun i => oFun id (ownStart id + i))]
  norm_num

theorem sum_Ico_head_guard {R : Type} [AddCommMonoid R] (g : Int → R) (a b : Int) :
    ∑ i in Finset.Ico a b, g i = (if a < b then g a else 0) + ∑ i in Finset.Ico (a + 1) b, g i := by
  by_cases h : a < b
  · have hI : Finset.Ico a b = insert a (Finset.Ico (a + 1) b) := by
      ext x
      simp only [Finset.mem_Ico, Finset.mem_insert]
      omega
    rw [hI, Finset.sum_insert (by simp), if_pos h]
  · rw [if_neg h, Finset.Ico_eq_empty_of_le (by omega), Finset.Ico_eq_empty_of_le (by omega)]
    simp

theorem sum_Ico_three_split {R : Type} [AddCommMonoid R] (g : Int → R) (n : Int) :
    ∑ i in Finset.Ico 0 n, g i
      = (if 0 < n then g 0 else 0) + (if 1 < n then g 1 else 0) + (if 2 < n then g 2 else 0)
        + ∑ i in Finset.Ico 3 n, g i := by
  rw [sum_Ico_head_guard g 0 n, sum_Ico_head_guard g (0 + 1) n,
    sum_Ico_head_guard g (0 + 1 + 1) n]
  norm_num
  abel

theorem sum_Ico_min_three {R : Type} [AddCommMonoid R] (g : Int → R) (n : Int) :
    ∑ i in Finset.Ico 0 (min n 3), g i
      = (if 0 < n then g 0 else 0) + (if 1 < n then g 1 else 0) + (if 2 < n then g 2 else 0) := by
  rw [sum_Ico_three_split, Finset.Ico_eq_empty_of_le (min_le_right n 3)]
  simp [lt_min_iff]

theorem writeAt_apply {T : Type} (mem : Int → T) (i : Int) (v : T) (j : Int) :
    writeAt mem i v j = if j = i then v else mem j := rfl

theorem forLabel_add_small {R : Type} [AddZeroClass R] (g : Int → R) (n : Int) (hn : n ≤ 3)
    (s : R) :
    forLabel 0 n (fun i out => out + g i) s
      = s + (if 0 < n then g 0 else 0) + (if 1 < n then g 1 else 0)
          + (if 2 < n then g 2 else 0) := by
  rcases (show n ≤ 0 ∨ n = 1 ∨ n = 2 ∨ n = 3 by omega) with h | h | h | h
  · rw [forLabel_of_le 0 n h, if_neg (by omega), if_neg (by omega), if_neg (by omega)]
    simp
  · subst h
    simp [forLabel, loopFrom]
  · subst h
    simp [forLabel, loopFrom]
  · subst h
    simp [forLabel, loopFrom]

theorem thrustTransform_counting_apply {A B : Type} (n : Int) (inp : Int → A)
    (op : Int → A → B) (mem : Int → B) (c : Int) :
    thrustTransform n (fun _ i => inp i) writeAt op mem c
      = if 0 ≤ c ∧ c < n then op c (inp c) else mem c := by
  unfold thrustTransform forLabel
  have key : ∀ k : Nat, loopFrom (fun i mem => writeAt mem i (op i (inp i))) k 0 mem c
      = if 0 ≤ c ∧ c < (k : Int) then op c (inp c) else mem c := by
    intro k
    induction k with
    | zero =>
      rw [if_neg (by push_cast; omega)]
      rfl
    | succ p ih =>
      rw [loopFrom_succ_last, writeAt_apply]
      by_cases hc : c = 0 + (p : Int)
      · rw [if_pos hc, if_pos (by push_cast; omega), hc]
      · rw [if_neg hc, ih]
        by_cases h : 0 ≤ c ∧ c < (p : Int)
        · rw [if_pos h, if_pos (by push_cast; omega)]
        · rw [if_neg h, if_neg (by push_cast; omega)]
  rw [key]
  by_cases h : 0 ≤ c ∧ c < n
  · rw [if_pos h, if_pos (by omega)]
  · rw [if_neg h, if_neg (by omega)]

theorem lduAddressingFastFunctor_eq_generic_small {R : Type} [AddZeroClass R]
    (ownStart neiStart losort : Int → Int) (oFun nFun : Int → Int → R) (id : Int) (d : R)
    (ho : ownStart (id + 1) - ownStart id ≤ 3) (hn : neiStart (id + 1) - neiStart id ≤ 3)
    (hl : ∀ j, neiStart id ≤ j → j < neiStart (id + 1) → nFun id (losort j) = nFun id j) :
    lduAddressingFastFunctor ownStart neiStart oFun nFun id d
      = lduAddressingFunctor ownStart neiStart losort oFun nFun sumOp sumOp id d := by
  unfold lduAddressingFastFunctor lduAddressingFunctor
  rw [lduAddressingFastFunctorState_unrolled]
  simp only [sumOp]
  rw [forLabel_of_le 3 _ ho,
    forLabel_add_small (fun i => oFun id (ownStart id + i)) _ ho,
    forLabel_add_small (fun i => nFun id (losort (neiStart id + i))) _ hn]
  have key : ∀ i : Int, 0 ≤ i →
      (if i < neiStart (id + 1) - neiStart id then nFun id (losort (neiStart id + i)) else 0)
        = if i < neiStart (id + 1) - neiStart id then nFun id (neiStart id + i) else 0 := by
    intro i hi
    split_ifs with h
    · exact hl _ (by omega) (by omega)
    · rfl
  rw [key 0 (by norm_num), key 1 (by norm_num), key 2 (by norm_num)]

theorem lduAddressingFastFunctor_value {R : Type} [AddCommMonoid R]
    (ownStart neiStart : Int → Int) (oFun nFun : Int → Int → R) (id : Int) (d : R) :
    lduAddressingFastFunctor ownStart neiStart oFun nFun id d
      = d + ∑ i in Finset.Ico 0 (ownStart (id + 1) - ownStart id), oFun id (ownStart id + i)
          + ∑ i in Finset.Ico 0 (min (neiStart (id + 1) - neiStart id) 3),
              nFun id (neiStart id + i) := by
  unfold lduAddressingFastFunctor
  rw [lduAddressingFastFunctorState_unrolled]
  simp only
  rw [forLabel_add (fun i => oFun id (ownStart id + i)),
    sum_Ico_three_split (fun i => oFun id (ownStart id + i)),
    sum_Ico_min_three (fun i => nFun id (neiStart id + i))]
  abel

theorem loopFrom_permuted_frame {T : Type} (pc : Int → Int) (F : Int → T → T) (k : Nat)
    (mem : Int → T) (c : Int) (h : ∀ g : Int, 0 ≤ g → g < k → pc g ≠ c) :
    loopFrom (fun g mem => writeAt mem (pc g) (F g (mem (pc g)))) k 0 mem c = mem c := by
  induction k with
  | zero => rfl
  | succ p ih =>
    rw [loopFrom_succ_last, writeAt_apply,
      if_neg (fun hc => h (0 + p) (by omega) (by push_cast; omega) hc.symm)]
    exact ih (fun g h0 hp => h g h0 (by push_cast; omega))

theorem loopFrom_permuted_hit {T : Type} (pc : Int → Int) (F : Int → T → T) (k : Nat)
    (mem : Int → T)
    (hinj : ∀ g g2 : Int, 0 ≤ g → g < k → 0 ≤ g2 → g2 < k → pc g = pc g2 → g = g2)
    (g : Int) (h0 : 0 ≤ g) (hk : g < k) :
    loopFrom (fun g mem => writeAt mem (pc g) (F g (mem (pc g)))) k 0 mem (pc g)
      = F g (mem (pc g)) := by
  induction k with
  | zero => exact absurd hk (by push_cast; omega)
  | succ p ih =>
    rw [loopFrom_succ_last, writeAt_apply]
    by_cases hg : g = 0 + (p : Int)
    · rw [if_pos (by rw [hg]), ← hg]
      rw [loopFrom_permuted_frame pc F p mem (pc g)]
      intro g2 h20 h2p hc
      have := hinj g2 g h20 (by push_cast; omega) h0 hk hc
      omega
    · have hne : pc g ≠ pc (0 + (p : Int)) := fun hc =>
        hg (hinj g (0 + p) h0 hk (by omega) (by push_cast; omega) hc)
      rw [if_neg hne]
      exact ih (fun a b ha hap hb hbp => hinj a b ha (by push_cast; omega) hb (by push_cast; omega))
        (by push_cast at hk; omega)

theorem forLabel_permuted_frame {T : Type} (pc : Int → Int) (F : Int → T → T) (n : Int)
    (mem : Int → T) (c : Int) (h : ∀ g : Int, 0 ≤ g → g < n → pc g ≠ c) :
    thrustTransform n (fun mem i => mem (pc i)) (fun mem i v => writeAt mem (pc i) v) F mem c
      = mem c := by
  unfold thrustTransform forLabel
  exact loopFrom_permuted_frame pc F _ mem c (fun g h0 hk => h g h0 (by omega))

theorem forLabel_permuted_hit {T : Type} (pc : Int → Int) (F : Int → T → T) (n : Int)
    (mem : Int → T)
    (hinj : ∀ g g2 : Int, 0 ≤ g → g < n → 0 ≤ g2 → g2 < n → pc g = pc g2 → g = g2)
    (g : Int) (h0 : 0 ≤ g) (hn : g < n) :
    thrustTransform n (fun mem i => mem (pc i)) (fun mem i v => writeAt mem (pc i) v) F mem (pc g)
      = F g (mem (pc g)) := by
  unfold thrustTransform forLabel
  exact loopFrom_permuted_hit pc F _ mem
    (fun a b ha hak hb hbk => hinj a b ha (by omega) hb (by omega)) g h0 (by omega)

theorem lduAddressingPatchFunctor_sum {R : Type} [AddCommMonoid R]
    (neiStart losort pcells : Int → Int) (fn : Int → Int → R) (id : Int) (s : R) :
    lduAddressingPatchFunctor neiStart losort pcells fn sumOp id s
      = s + ∑ j in Finset.Ico (neiStart id) (neiStart (id + 1)), fn (pcells id) (losort j) := by
  unfold lduAddressingPatchFunctor
  simp only [sumOp]
  rw [forLabel_add (fun i => fn (pcells id) (losort (neiStart id + i))),
    sum_Ico_label_shift (fun j => fn (pcells id) (losort j))]
  have e : neiStart id + (neiStart (id + 1) - neiStart id) = neiStart (id + 1) := by ring
  rw [e]

theorem loopFrom_scatter_add {R : Type} [AddCommMonoid R] (k : Int → Int) (v : Int → R)
    (n : Nat) (out : Int → R) (c : Int) :
    loopFrom (fun f out => writeAt out (k f) (out (k f) + v f)) n 0 out c
      = out c + ∑ f in (Finset.Ico 0 (0 + (n : Int))).filter (fun f => k f = c), v f := by
  induction n with
  | zero => simp [loopFrom]
  | succ p ih =>
    rw [loopFrom_succ_last, writeAt_apply, Ico_label_succ_right, Finset.filter_insert]
    by_cases hc : c = k (0 + (p : Int))
    · rw [if_pos hc, if_pos hc.symm, Finset.sum_insert (by simp), ← hc, ih]
      abel
    · rw [if_neg hc, if_neg (fun h => hc h.symm), ih]

theorem naivePatchAccumulate_apply {R : Type} [AddCommMonoid R] (P : Int)
    (faceCells : Int → Int) (fn : Int → Int → R) (out : Int → R) (c : Int) :
    naivePatchAccumulate P faceCells fn out c
      = out c + ∑ f in (Finset.Ico 0 P).filter (fun f => faceCells f = c), fn c f := by
  unfold naivePatchAccumulate forLabel
  rw [loopFrom_scatter_add faceCells (fun f => fn (faceCells f) f)]
  have hI : Finset.Ico (0 : Int) (0 + ((P - 0).toNat : Int)) = Finset.Ico 0 P := by
    ext x
    simp only [Finset.mem_Ico]
    omega
  rw [hI]
  congr 1
  refine Finset.sum_congr rfl (fun f hf => ?_)
  rw [(Finset.mem_filter.mp hf).2]

theorem lduAddressingFunctor_sum {R : Type} [AddCommMonoid R]
    (ownStart neiStart losort : Int → Int) (oFun nFun : Int → Int → R) (id : Int) (d : R) :
    lduAddressingFunctor ownStart neiStart losort oFun nFun sumOp sumOp id d
      = d + ∑ f in Finset.Ico (ownStart id) (ownStart (id + 1)), oFun id f
          + ∑ j in Finset.Ico (neiStart id) (neiStart (id + 1)), nFun id (losort j) := by
  unfold lduAddressingFunctor
  simp only [sumOp]
  rw [forLabel_add (fun i => nFun id (losort (neiStart id + i))),
    forLabel_add (fun i => oFun id (ownStart id + i)),
    sum_Ico_label_shift (fun j => nFun id (losort j)),
    sum_Ico_label_shift (fun f => oFun id f)]
  have e1 : ownStart id + (ownStart (id + 1) - ownStart id) = ownStart (id + 1) := by ring
  have e2 : neiStart id + (neiStart (id + 1) - neiStart id) = neiStart (id + 1) := by ring
  rw [e1, e2]

theorem forLabel_fill_apply {T : Type} (n : Int) (v : Int → T) (mem : Int → T) (c : Int) :
    forLabel 0 n (fun i mem => writeAt mem i (v i)) mem c
      = if 0 ≤ c ∧ c < n then v c else mem c :=
  thrustTransform_counting_apply n v (fun _ x => x) mem c

theorem loopFrom_scatter_add_two {R : Type} [AddCommMonoid R] (k1 k2 : Int → Int)
    (v1 v2 : Int → R) (n : Nat) (out : Int → R) (c : Int) :
    loopFrom
        (fun f out =>
          writeAt (writeAt out (k1 f) (out (k1 f) + v1 f)) (k2 f)
            (writeAt out (k1 f) (out (k1 f) + v1 f) (k2 f) + v2 f))
        n 0 out c
      = out c + ∑ f in (Finset.Ico 0 (0 + (n : Int))).filter (fun f => k1 f = c), v1 f
          + ∑ f in (Finset.Ico 0 (0 + (n : Int))).filter (fun f => k2 f = c), v2 f := by
  induction n generalizing c with
  | zero => simp [loopFrom]
  | succ p ih =>
    rw [loopFrom_succ_last, Ico_label_succ_right, Finset.filter_insert, Finset.filter_insert]
    generalize loopFrom
        (fun f out =>
          writeAt (writeAt out (k1 f) (out (k1 f) + v1 f)) (k2 f)
            (writeAt out (k1 f) (out (k1 f) + v1 f) (k2 f) + v2 f))
        p 0 out = prev at ih ⊢
    simp only [writeAt_apply]
    by_cases h1 : k1 (0 + (p : Int)) = c <;> by_cases h2 : k2 (0 + (p : Int)) = c
    · rw [if_pos h1, if_pos h2, if_pos h2.symm, Finset.sum_insert (by simp),
        Finset.sum_insert (by simp), if_pos (h2.trans h1.symm), h1, ih]
      abel
    · rw [if_pos h1, if_neg h2, if_neg (fun h => h2 h.symm), if_pos h1.symm,
        Finset.sum_insert (by simp), h1, ih]
      abel
    · rw [if_neg h1, if_pos h2, if_pos h2.symm, Finset.sum_insert (by simp),
        if_neg (fun h => h1 (h.symm.trans h2)), h2, ih]
      abel
    · rw [if_neg h1, if_neg h2, if_neg (fun h => h2 h.symm), if_neg (fun h => h1 h.symm), ih]

theorem referenceAmul_apply {R : Type} [Semiring R] (N M : Int) (owner neighbour : Int → Int)
    (diag upper lower psi : Int → R) (c : Int) :
    referenceAmul N M owner neighbour diag upper lower psi c
      = (if 0 ≤ c ∧ c < N then diag c * psi c else 0)
          + ∑ f in (Finset.Ico 0 M).filter (fun f => owner f = c), upper f * psi (neighbour f)
          + ∑ f in (Finset.Ico 0 M).filter (fun f => neighbour f = c), lower f * psi (owner f) := by
  unfold referenceAmul
  simp only
  unfold forLabel
  rw [loopFrom_scatter_add_two owner neighbour (fun f => upper f * psi (neighbour f))
    (fun f => lower f * psi (owner f))]
  have hI : Finset.Ico (0 : Int) (0 + ((M - 0).toNat : Int)) = Finset.Ico 0 M := by
    ext x
    simp only [Finset.mem_Ico]
    omega
  rw [hI]
  have h := forLabel_fill_apply N (fun c => diag c * psi c) (fun _ => (0 : R)) c
  unfold forLabel at h
  rw [h]

theorem losort_surj (M : Int) (losort : Int → Int)
    (hmaps : ∀ j : Int, 0 ≤ j → j < M → 0 ≤ losort j ∧ losort j < M)
    (hinj : ∀ j j2 : Int, 0 ≤ j → j < M → 0 ≤ j2 → j2 < M → losort j = losort j2 → j = j2)
    (f : Int) (hf0 : 0 ≤ f) (hfM : f < M) : ∃ j : Int, 0 ≤ j ∧ j < M ∧ losort j = f := by
  have hsub : (Finset.Ico 0 M).image losort ⊆ Finset.Ico 0 M := by
    intro x hx
    obtain ⟨j, hj, rfl⟩ := Finset.mem_image.mp hx
    have hj2 := Finset.mem_Ico.mp hj
    exact Finset.mem_Ico.mpr (hmaps j hj2.1 hj2.2)
  have hcard : ((Finset.Ico 0 M).image losort).card = (Finset.Ico 0 M).card := by
    refine Finset.card_image_of_injOn (fun j hj j2 hj2 h => ?_)
    have a := Finset.mem_Ico.mp (Finset.mem_coe.mp hj)
    have b := Finset.mem_Ico.mp (Finset.mem_coe.mp hj2)
    exact hinj j j2 a.1 a.2 b.1 b.2 h
  have heq := Finset.eq_of_subset_of_card_le hsub (le_of_eq hcard.symm)
  have hmem : f ∈ (Finset.Ico 0 M).image losort := by
    rw [heq]
    exact Finset.mem_Ico.mpr ⟨hf0, hfM⟩
  obtain ⟨j, hj, hjf⟩ := Finset.mem_image.mp hmem
  have hj2 := Finset.mem_Ico.mp hj
  exact ⟨j, hj2.1, hj2.2, hjf⟩

theorem lduAddressingFunctor_foldl {T : Type}
    (ownStart neiStart losort : Int → Int)
    (oFun nFun : Int → Int → T) (oOp nOp : T → T → T) (id : Int) (d : T) :
    lduAddressingFunctor ownStart neiStart losort oFun nFun oOp nOp id d
      = ((labelRange (neiStart id) (neiStart (id + 1))).map losort).foldl
          (fun acc f => nOp acc (nFun id f))
          ((labelRange (ownStart id) (ownStart (id + 1))).foldl
            (fun acc f => oOp acc (oFun id f)) d) := by
  unfold lduAddressingFunctor
  simp only
  rw [forLabel_shift (ownStart id) _ (fun f out => oOp out (oFun id f)),
    forLabel_shift (neiStart id) _ (fun j out => nOp out (nFun id (losort j))),
    forLabel_eq_foldl, forLabel_eq_foldl, List.foldl_map]
  simp

theorem lduAddressingFastFunctor_eq_identity {R : Type} [AddCommMonoid R]
    (ownStart neiStart : Int → Int) (oFun nFun : Int → Int → R) (id : Int) (d : R)
    (hn : neiStart (id + 1) - neiStart id ≤ 3) :
    lduAddressingFastFunctor ownStart neiStart oFun nFun id d
      = lduAddressingFunctor ownStart neiStart (fun j => j) oFun nFun sumOp sumOp id d := by
  rw [lduAddressingFastFunctor_value, lduAddressingFunctor_sum, min_eq_left hn,
    sum_Ico_label_shift (fun f => oFun id f), sum_Ico_label_shift (fun j => nFun id j)]
  have e1 : ownStart id + (ownStart (id + 1) - ownStart id) = ownStart (id + 1) := by ring
  have e2 : neiStart id + (neiStart (id + 1) - neiStart id) = neiStart (id + 1) := by ring
  rw [e1, e2]

theorem table_mono (tbl : Int → Int) (N : Int)
    (hmono : ∀ c : Int, 0 ≤ c → c < N → tbl c ≤ tbl (c + 1))
    (a b : Int) (ha : 0 ≤ a) (hab : a ≤ b) (hb : b ≤ N) : tbl a ≤ tbl b := by
  have key : ∀ k : Nat, a + k ≤ N → tbl a ≤ tbl (a + k) := by
    intro k
    induction k with
    | zero => intro _; simp
    | succ p ih =>
      intro hp
      have h1 := ih (by push_cast at hp; omega)
      have h2 := hmono (a + p) (by omega) (by push_cast at hp; omega)
      have e : a + ((p + 1 : Nat) : Int) = a + p + 1 := by push_cast; ring
      rw [e]
      exact le_trans h1 h2
  have h := key (b - a).toNat (by omega)
  have e : a + ((b - a).toNat : Int) = b := by omega
  rwa [e] at h

theorem range_cell_unique (tbl : Int → Int) (N : Int)
    (hmono : ∀ c : Int, 0 ≤ c → c < N → tbl c ≤ tbl (c + 1))
    (c c2 f : Int) (hc0 : 0 ≤ c) (hcN : c < N) (hc20 : 0 ≤ c2) (hc2N : c2 < N)
    (h1 : tbl c ≤ f ∧ f < tbl (c + 1)) (h2 : tbl c2 ≤ f ∧ f < tbl (c2 + 1)) : c = c2 := by
  rcases lt_trichotomy c c2 with h | h | h
  · have := table_mono tbl N hmono (c + 1) c2 (by omega) (by omega) (by omega)
    omega
  · exact h
  · have := table_mono tbl N hmono (c2 + 1) c (by omega) (by omega) (by omega)
    omega

theorem range_cell_bounds (tbl : Int → Int) (N : Int)
    (hmono : ∀ c : Int, 0 ≤ c → c < N → tbl c ≤ tbl (c + 1))
    (c f : Int) (hc0 : 0 ≤ c) (hcN : c < N) (h1 : tbl c ≤ f ∧ f < tbl (c + 1)) :
    tbl 0 ≤ f ∧ f < tbl N := by
  have a := table_mono tbl N hmono 0 c (le_refl 0) hc0 (by omega)
  have b := table_mono tbl N hmono (c + 1) N (by omega) (by omega) (le_refl N)
  omega

theorem range_cell_exists (tbl : Int → Int) (f : Int) (n : Nat)
    (hmono : ∀ c : Int, 0 ≤ c → c < n → tbl c ≤ tbl (c + 1))
    (hlo : tbl 0 ≤ f) (hhi : f < tbl n) :
    ∃ c : Int, 0 ≤ c ∧ c < n ∧ tbl c ≤ f ∧ f < tbl (c + 1) := by
  induction n with
  | zero => exact absurd hhi (by simp; omega)
  | succ p ih =>
    by_cases hf : f < tbl p
    · obtain ⟨c, h0, hp, h1, h2⟩ := ih (fun c h0 hp => hmono c h0 (by push_cast; omega)) hf
      exact ⟨c, h0, by push_cast; omega, h1, h2⟩
    · refine ⟨p, by omega, by push_cast; omega, by omega, ?_⟩
      have e : ((p + 1 : Nat) : Int) = (p : Int) + 1 := by push_cast; ring
      rwa [e] at hhi

theorem sum_ranges_nat {R : Type} [AddCommMonoid R] (tbl : Int → Int) (g : Int → Int → R)
    (g2 : Int → R) (n : Nat)
    (hmono : ∀ c : Int, 0 ≤ c → c < n → tbl c ≤ tbl (c + 1))
    (hg : ∀ c : Int, 0 ≤ c → c < n → ∀ i : Int, tbl c ≤ i → i < tbl (c + 1) → g c i = g2 i) :
    ∑ c in Finset.Ico 0 (n : Int), ∑ i in Finset.Ico (tbl c) (tbl (c + 1)), g c i
      = ∑ i in Finset.Ico (tbl 0) (tbl n), g2 i := by
  induction n with
  | zero => simp
  | succ p ih =>
    have hI := Ico_label_succ_right 0 p
    simp only [zero_add] at hI
    have e : ((p + 1 : Nat) : Int) = (p : Int) + 1 := by push_cast; ring
    have h0p : tbl 0 ≤ tbl p :=
      table_mono tbl (p + 1) (fun c h0 hc => hmono c h0 (by rw [e]; exact hc)) 0 p
        (le_refl 0) (by omega) (by omega)
    have hp1 : tbl p ≤ tbl (p + 1) := hmono p (by omega) (by rw [e]; omega)
    rw [hI, Finset.sum_insert (by simp),
      ih (fun c h0 hc => hmono c h0 (by rw [e]; omega))
        (fun c h0 hc => hg c h0 (by rw [e]; omega)),
      e, ← Finset.Ico_union_Ico_eq_Ico h0p hp1,
      Finset.sum_union (Finset.Ico_disjoint_Ico_consecutive _ _ _), add_comm]
    congr 1
    exact Finset.sum_congr rfl (fun i hi =>
      hg p (by omega) (by rw [e]; omega) i (Finset.mem_Ico.mp hi).1 (Finset.mem_Ico.mp hi).2)

theorem sum_ranges {R : Type} [AddCommMonoid R] (tbl : Int → Int) (g : Int → Int → R)
    (g2 : Int → R) (N : Int) (hN : 0 ≤ N)
    (hmono : ∀ c : Int, 0 ≤ c → c < N → tbl c ≤ tbl (c + 1))
    (hg : ∀ c : Int, 0 ≤ c → c < N → ∀ i : Int, tbl c ≤ i → i < tbl (c + 1) → g c i = g2 i) :
    ∑ c in Finset.Ico 0 N, ∑ i in Finset.Ico (tbl c) (tbl (c + 1)), g c i
      = ∑ i in Finset.Ico (tbl 0) (tbl N), g2 i := by
  have e : ((N.toNat : Nat) : Int) = N := Int.toNat_of_nonneg hN
  have h := sum_ranges_nat tbl g g2 N.toNat (fun c h0 hc => hmono c h0 (by omega))
    (fun c h0 hc => hg c h0 (by omega))
  rwa [e] at h

theorem range_cell_exists_int (tbl : Int → Int) (f N : Int) (hN : 0 ≤ N)
    (hmono : ∀ c : Int, 0 ≤ c → c < N → tbl c ≤ tbl (c + 1))
    (hlo : tbl 0 ≤ f) (hhi : f < tbl N) :
    ∃ c : Int, 0 ≤ c ∧ c < N ∧ tbl c ≤ f ∧ f < tbl (c + 1) := by
  have e : ((N.toNat : Nat) : Int) = N := Int.toNat_of_nonneg hN
  obtain ⟨c, h0, hc, h1, h2⟩ := range_cell_exists tbl f N.toNat
    (fun c h0 hc => hmono c h0 (by omega)) hlo (by rw [e]; exact hhi)
  exact ⟨c, h0, by omega, h1, h2⟩

theorem matrixOperationSum_total {R : Type} [AddCommMonoid R] (inp : Int → R) (out : gpuList R)
    (addr : lduAddressing) (o n : Int → Int → R) :
    ∑ c in Finset.Ico 0 addr.size, (matrixOperationSum inp out addr o n).data c
      = ∑ c in Finset.Ico 0 addr.size, inp c
        + ∑ c in Finset.Ico 0 addr.size,
            ∑ f in Finset.Ico (addr.ownerStartAddr.data c) (addr.ownerStartAddr.data (c + 1)),
              o c f
        + ∑ c in Finset.Ico 0 addr.size,
            ∑ j in Finset.Ico (addr.losortStartAddr.data c) (addr.losortStartAddr.data (c + 1)),
              n c (addr.losortAddr.data j) := by
  rw [← Finset.sum_add_distrib, ← Finset.sum_add_distrib]
  refine Finset.sum_congr rfl (fun c hc => ?_)
  have hc2 := Finset.mem_Ico.mp hc
  simp only [matrixOperationSum, matrixOperation, thrustTransform_counting_apply]
  rw [if_pos hc2, lduAddressingFunctor_sum]

theorem tablePtr_eq (tbl : List Int) (i : Int) (h0 : 0 ≤ i) (h : i.toNat < tbl.length) :
    tablePtr tbl i = tbl[i.toNat] := by
  unfold tablePtr readAt
  rw [if_pos h0, List.getElem?_eq_getElem h]
  rfl

theorem readAt_eq_some (tbl : List Int) (i : Int) (h0 : 0 ≤ i) (hi : i < tbl.length) :
    readAt tbl i = some (tablePtr tbl i) := by
  have h : i.toNat < tbl.length := by omega
  rw [tablePtr_eq tbl i h0 h]
  unfold readAt
  rw [if_pos h0, List.getElem?_eq_getElem h]

theorem tablePtr_mem (tbl : List Int) (i : Int) (h0 : 0 ≤ i) (hi : i < tbl.length) :
    tablePtr tbl i ∈ tbl := by
  have h : i.toNat < tbl.length := by omega
  rw [tablePtr_eq tbl i h0 h]
  exact List.getElem_mem h

theorem tablePtr_mono (tbl : List Int) (hs : tbl.Pairwise (fun a b => a ≤ b)) (a b : Int)
    (ha : 0 ≤ a) (hab : a ≤ b) (hb : b < tbl.length) : tablePtr tbl a ≤ tablePtr tbl b := by
  have h1 : a.toNat < tbl.length := by omega
  have h2 : b.toNat < tbl.length := by omega
  rw [tablePtr_eq tbl a ha h1, tablePtr_eq tbl b (by omega) h2]
  rcases eq_or_lt_of_le hab with h | h
  · subst h
    exact le_refl _
  · exact List.pairwise_iff_getElem.mp hs a.toNat b.toNat h1 h2 (by omega)

theorem loopFromChecked_eq_some {σ : Type} (body : Int → σ → Option σ) (body2 : Int → σ → σ)
    (n : Nat) (i : Int) (s : σ)
    (h : ∀ k : Int, i ≤ k → k < i + n → ∀ t : σ, body k t = some (body2 k t)) :
    loopFromChecked body n i s = some (loopFrom body2 n i s) := by
  induction n generalizing i s with
  | zero => rfl
  | succ p ih =>
    rw [loopFromChecked, loopFrom, h i (le_refl i) (by push_cast; omega) s, Option.some_bind]
    exact ih (i + 1) (body2 i s) (fun k hk1 hk2 t => h k (by omega) (by push_cast; omega) t)

theorem forLabelChecked_eq_some {σ : Type} (start stop : Int) (body : Int → σ → Option σ)
    (body2 : Int → σ → σ) (s : σ)
    (h : ∀ k : Int, start ≤ k → k < stop → ∀ t : σ, body k t = some (body2 k t)) :
    forLabelChecked start stop body s = some (forLabel start stop body2 s) := by
  unfold forLabelChecked forLabel
  exact loopFromChecked_eq_some body body2 _ start s (fun k hk1 hk2 t => h k hk1 (by omega) t)

theorem GAMGSolverAgglomerateAsymFunctor_value {R : Type} [AddCommMonoid R]
    (uf lf : Int → R) (flip : Int → Bool) (sort : Int → Int) (uc lc : R) (start end_ : Int) :
    GAMGSolverAgglomerateAsymFunctor uf lf flip sort (uc, lc) (start, end_)
      = (uc + ∑ i in Finset.Ico start end_,
                (if !flip (sort i) then uf (sort i) else lf (sort i)),
         lc + ∑ i in Finset.Ico start end_,
                (if !flip (sort i) then lf (sort i) else uf (sort i))) := by
  unfold GAMGSolverAgglomerateAsymFunctor
  simp only
  have hbody : (fun i (acc : R × R) =>
        if (!flip (sort i)) = true then (acc.1 + uf (sort i), acc.2 + lf (sort i))
        else (acc.1 + lf (sort i), acc.2 + uf (sort i)))
      = (fun i (acc : R × R) =>
        ((fun j out => out + (if !flip (sort j) then uf (sort j) else lf (sort j))) i acc.1,
         (fun j out => out + (if !flip (sort j) then lf (sort j) else uf (sort j))) i acc.2)) := by
    funext i acc
    by_cases h : (!flip (sort i)) = true <;> simp [h]
  rw [hbody]
  refine (forLabel_pair
    (fun j out => out + (if !flip (sort j) then uf (sort j) else lf (sort j)))
    (fun j out => out + (if !flip (sort j) then lf (sort j) else uf (sort j)))
    start end_ uc lc).trans ?_
  rw [forLabel_add, forLabel_add]

theorem GAMGSolverAgglomerateDiagAsymFunctor_value {R : Type} [AddCommMonoid R]
    (uf lf : Int → R) (sort : Int → Int) (s : R) (start end_ : Int) :
    GAMGSolverAgglomerateDiagAsymFunctor uf lf sort s (start, end_)
      = s + ∑ i in Finset.Ico start end_, (uf (sort i) + lf (sort i)) := by
  unfold GAMGSolverAgglomerateDiagAsymFunctor
  exact forLabel_add (fun i => uf (sort i) + lf (sort i)) start end_ s

theorem GAMGSolverAgglomerateSymFunctor_value {R : Type} [AddCommMonoid R]
    (ff : Int → R) (sort : Int → Int) (s : R) (start end_ : Int) :
    GAMGSolverAgglomerateSymFunctor ff sort s (start, end_)
      = s + ∑ i in Finset.Ico start end_, ff (sort i) := by
  unfold GAMGSolverAgglomerateSymFunctor
  exact forLabel_add (fun i => ff (sort i)) start end_ s

theorem GAMGSolverAgglomerateDiagSymFunctor_value {R : Type} [Semiring R]
    (ff : Int → R) (sort : Int → Int) (s : R) (start end_ : Int) :
    GAMGSolverAgglomerateDiagSymFunctor ff sort s (start, end_)
      = s + ∑ i in Finset.Ico start end_, 2 * ff (sort i) := by
  unfold GAMGSolverAgglomerateDiagSymFunctor
  exact forLabel_add (fun i => 2 * ff (sort i)) start end_ s

theorem wrapLabel_of_mem (w : Nat) (hw : 1 ≤ w) (x : Int) (hlo : labelMin w ≤ x)
    (hhi : x ≤ labelMax w) : wrapLabel w x = x := by
  unfold labelMin at hlo
  unfold labelMax at hhi
  unfold wrapLabel
  have hpow : (2 : Int) ^ w = 2 * 2 ^ (w - 1) := by
    have e : w = (w - 1) + 1 := by omega
    conv_lhs => rw [e]
    rw [pow_succ]
    ring
  have hpos : (0 : Int) < 2 ^ (w - 1) := by positivity
  rw [hpow, Int.emod_eq_of_lt (by omega) (by omega)]
  ring

theorem faceToDiag_exact_mem (w : Nat) (n : Int) (hlo : labelMin w ≤ n)
    (hhi : n ≤ labelMax w) : labelMin w ≤ -1 - n ∧ -1 - n ≤ labelMax w := by
  unfold labelMin labelMax at *
  constructor <;> omega

theorem faceToDiagFunctor_exact (w : Nat) (hw : 1 ≤ w) (n : Int) (hlo : labelMin w ≤ n)
    (hhi : n ≤ labelMax w) : faceToDiagFunctor w n = -1 - n := by
  have h := faceToDiag_exact_mem w n hlo hhi
  unfold faceToDiagFunctor
  exact wrapLabel_of_mem w hw _ h.1 h.2

theorem loopFrom_fst {A B : Type} (body : Int → A × B → A × B) (f : Int → A → A)
    (h : ∀ (i : Int) (acc : A × B), (body i acc).1 = f i acc.1) (n : Nat) (i : Int)
    (s : A × B) : (loopFrom body n i s).1 = loopFrom f n i s.1 := by
  induction n generalizing i s with
  | zero => rfl
  | succ p ih =>
    rw [loopFrom, loopFrom, ih (i + 1) (body i s), h]

theorem forLabel_fst {A B : Type} (body : Int → A × B → A × B) (f : Int → A → A)
    (h : ∀ (i : Int) (acc : A × B), (body i acc).1 = f i acc.1) (start stop : Int)
    (s : A × B) : (forLabel start stop body s).1 = forLabel start stop f s.1 :=
  loopFrom_fst body f h _ start s

theorem GAMGSolverAgglomerateAsymFunctorTraced_fst {R : Type} [Add R]
    (uf lf : Int → R) (flip : Int → Bool) (sort : Int → Int) (inp : R × R) (t : Int × Int) :
    (GAMGSolverAgglomerateAsymFunctorTraced uf lf flip sort inp t).1
      = GAMGSolverAgglomerateAsymFunctor uf lf flip sort inp t := by
  unfold GAMGSolverAgglomerateAsymFunctorTraced GAMGSolverAgglomerateAsymFunctor
  refine forLabel_fst _ _ (fun i acc => ?_) _ _ _
  by_cases h : (!flip (sort i)) = true <;> simp [h]

theorem GAMGSolverAgglomerateDiagAsymFunctorTraced_fst {R : Type} [Add R]
    (uf lf : Int → R) (sort : Int → Int) (s : R) (t : Int × Int) :
    (GAMGSolverAgglomerateDiagAsymFunctorTraced uf lf sort s t).1
      = GAMGSolverAgglomerateDiagAsymFunctor uf lf sort s t := by
  unfold GAMGSolverAgglomerateDiagAsymFunctorTraced GAMGSolverAgglomerateDiagAsymFunctor
  exact forLabel_fst _ _ (fun _ _ => rfl) _ _ _

theorem GAMGSolverAgglomerateSymFunctorTraced_fst {R : Type} [Add R]
    (ff : Int → R) (sort : Int → Int) (s : R) (t : Int × Int) :
    (GAMGSolverAgglomerateSymFunctorTraced ff sort s t).1
      = GAMGSolverAgglomerateSymFunctor ff sort s t := by
  unfold GAMGSolverAgglomerateSymFunctorTraced GAMGSolverAgglomerateSymFunctor
  exact forLabel_fst _ _ (fun _ _ => rfl) _ _ _

theorem GAMGSolverAgglomerateDiagSymFunctorTraced_fst {R : Type} [Semiring R]
    (ff : Int → R) (sort : Int → Int) (s : R) (t : Int × Int) :
    (GAMGSolverAgglomerateDiagSymFunctorTraced ff sort s t).1
      = GAMGSolverAgglomerateDiagSymFunctor ff sort s t := by
  unfold GAMGSolverAgglomerateDiagSymFunctorTraced GAMGSolverAgglomerateDiagSymFunctor
  exact forLabel_fst _ _ (fun _ _ => rfl) _ _ _

/-! ## C1: generic per-cell reduction -/

/-- C1: the generic per-cell reduction equals the left fold that starts from `d`,
applies `oOp` with `oFun id f` for `f = ownStart id, ..., ownStart (id+1) - 1` in
ascending order, and then applies `nOp` with `nFun id (losort j)` for
`j = neiStart id, ..., neiStart (id+1) - 1` in ascending order; no algebraic law of
the operators is used. -/
theorem lduAddressingFunctor_eq_foldl {T : Type}
    (ownStart neiStart losort : Int → Int)
    (oFun nFun : Int → Int → T) (oOp nOp : T → T → T) (id : Int) (d : T) :
    lduAddressingFunctor ownStart neiStart losort oFun nFun oOp nOp id d
      = (labelRange (neiStart id) (neiStart (id + 1))).foldl
          (fun acc j => nOp acc (nFun id (losort j)))
          ((labelRange (ownStart id) (ownStart (id + 1))).foldl
            (fun acc f => oOp acc (oFun id f)) d) := by
  unfold lduAddressingFunctor
  simp only
  rw [forLabel_shift (ownStart id) _ (fun f out => oOp out (oFun id f)),
    forLabel_shift (neiStart id) _ (fun j out => nOp out (nFun id (losort j)))]
  rw [forLabel_eq_foldl, forLabel_eq_foldl]
  simp

/-- The range `[2, 5)` lists `2, 3, 4`; an inverted range is empty. -/
theorem labelRange_example : labelRange 2 5 = [2, 3, 4] ∧ labelRange 5 2 = [] := by
  decide

/-- With list concatenation for both operators the order of the gather is visible:
cell 1 with owner range `[2, 3)` and neighbour range `[0, 2)` over `losort = [7, 8]`
starts from the input, then takes owner face 2, then faces 7 and 8. -/
theorem lduAddressingFunctor_example :
    lduAddressingFunctor (T := List Int)
      (fun i => if i ≤ 0 then 0 else if i = 1 then 2 else 3)
      (fun i => if i ≤ 0 then 0 else if i = 1 then 0 else 2)
      (fun j => if j = 0 then 7 else 8)
      (fun c f => [c, f]) (fun c f => [c, 100 + f])
      (fun a b => a ++ b) (fun a b => a ++ b) 1 [42]
      = [42, 1, 2, 1, 107, 1, 108] := by
  decide

/-! ## C2: matrix-vector product -/

/-- C2: for an LDU matrix with `addr.size` cells and `M` internal faces and a well-formed
addressing (`[ownStart[c], ownStart[c+1])` is exactly the set of faces owned by `c`;
`losort` is a permutation of `[0, M)`; `losort` over `[losortStart[c], losortStart[c+1])`
enumerates exactly the faces whose neighbour is `c`), `matrixOperation` with input
`diag[c] * psi[c]`, the coefficient-times-field accessors over `(upper, neighbour)` and
`(lower, owner)` with the identity and the default sum operators leaves in every cell
`c`, over exact arithmetic, `diag[c] * psi[c]
+ ∑ over faces f with owner[f] = c of upper[f] * psi[neighbour[f]]
+ ∑ over faces f with neighbour[f] = c of lower[f] * psi[owner[f]]`, which is the value
the face-loop reference product `referenceAmul` computes, for any valence. The
convention `owner[f] < neighbour[f]` is not needed. -/
theorem matrixOperation_eq_referenceAmul {R : Type} [Semiring R] (out : gpuList R)
    (addr : lduAddressing) (M : Int) (owner neighbour : Int → Int)
    (diag upper lower psi : Int → R)
    (hown : ∀ c : Int, 0 ≤ c → c < addr.size → ∀ f : Int,
      (addr.ownerStartAddr.data c ≤ f ∧ f < addr.ownerStartAddr.data (c + 1))
        ↔ (0 ≤ f ∧ f < M ∧ owner f = c))
    (hmaps : ∀ j : Int, 0 ≤ j → j < M → 0 ≤ addr.losortAddr.data j ∧ addr.losortAddr.data j < M)
    (hinj : ∀ j j2 : Int, 0 ≤ j → j < M → 0 ≤ j2 → j2 < M →
      addr.losortAddr.data j = addr.losortAddr.data j2 → j = j2)
    (hnei : ∀ c : Int, 0 ≤ c → c < addr.size → ∀ j : Int,
      (addr.losortStartAddr.data c ≤ j ∧ j < addr.losortStartAddr.data (c + 1))
        ↔ (0 ≤ j ∧ j < M ∧ neighbour (addr.losortAddr.data j) = c))
    (c : Int) (hc0 : 0 ≤ c) (hcN : c < addr.size) :
    (matrixOperationSum (fun c => diag c * psi c) out addr
        (matrixCoeffsMultiplyFunctor psi upper neighbour (fun x => x))
        (matrixCoeffsMultiplyFunctor psi lower owner (fun x => x))).data c
      = diag c * psi c
          + ∑ f in (Finset.Ico 0 M).filter (fun f => owner f = c), upper f * psi (neighbour f)
          + ∑ f in (Finset.Ico 0 M).filter (fun f => neighbour f = c), lower f * psi (owner f)
    ∧ (matrixOperationSum (fun c => diag c * psi c) out addr
        (matrixCoeffsMultiplyFunctor psi upper neighbour (fun x => x))
        (matrixCoeffsMultiplyFunctor psi lower owner (fun x => x))).data c
      = referenceAmul addr.size M owner neighbour diag upper lower psi c := by
  have key : (matrixOperationSum (fun c => diag c * psi c) out addr
        (matrixCoeffsMultiplyFunctor psi upper neighbour (fun x => x))
        (matrixCoeffsMultiplyFunctor psi lower owner (fun x => x))).data c
      = diag c * psi c
          + ∑ f in (Finset.Ico 0 M).filter (fun f => owner f = c), upper f * psi (neighbour f)
          + ∑ f in (Finset.Ico 0 M).filter (fun f => neighbour f = c), lower f * psi (owner f) := by
    unfold matrixOperationSum matrixOperation
    simp only
    rw [thrustTransform_counting_apply, if_pos ⟨hc0, hcN⟩, lduAddressingFunctor_sum]
    simp only [matrixCoeffsMultiplyFunctor]
    have hO : Finset.Ico (addr.ownerStartAddr.data c) (addr.ownerStartAddr.data (c + 1))
        = (Finset.Ico 0 M).filter (fun f => owner f = c) := by
      ext f
      rw [Finset.mem_Ico, Finset.mem_filter, Finset.mem_Ico, hown c hc0 hcN f]
      tauto
    rw [hO]
    congr 1
    refine Finset.sum_nbij (fun j => addr.losortAddr.data j) ?_ ?_ ?_ (fun _ _ => rfl)
    · intro j hj
      have hj2 := (hnei c hc0 hcN j).mp (Finset.mem_Ico.mp hj)
      have hm := hmaps j hj2.1 hj2.2.1
      exact Finset.mem_filter.mpr ⟨Finset.mem_Ico.mpr hm, hj2.2.2⟩
    · intro j hj j2 hj2 heq
      have a := (hnei c hc0 hcN j).mp (Finset.mem_Ico.mp (Finset.mem_coe.mp hj))
      have b := (hnei c hc0 hcN j2).mp (Finset.mem_Ico.mp (Finset.mem_coe.mp hj2))
      exact hinj j j2 a.1 a.2.1 b.1 b.2.1 heq
    · intro f hf
      have hf2 := Finset.mem_filter.mp (Finset.mem_coe.mp hf)
      have hf3 := Finset.mem_Ico.mp hf2.1
      obtain ⟨j, hj0, hjM, hjf⟩ := losort_surj M addr.losortAddr.data hmaps hinj f hf3.1 hf3.2
      refine ⟨j, Finset.mem_coe.mpr (Finset.mem_Ico.mpr ?_), hjf⟩
      exact (hnei c hc0 hcN j).mpr ⟨hj0, hjM, by rw [hjf]; exact hf2.2⟩
  exact ⟨key, by rw [key, referenceAmul_apply, if_pos ⟨hc0, hcN⟩]⟩

theorem exampleAddr_hown (c : Int) (hc0 : 0 ≤ c) (hc : c < exampleAddr.size) (f : Int) :
    (exampleAddr.ownerStartAddr.data c ≤ f ∧ f < exampleAddr.ownerStartAddr.data (c + 1))
      ↔ (0 ≤ f ∧ f < 2 ∧ exampleOwner f = c) := by
  have hc4 : c < 4 := hc
  simp only [exampleAddr, exampleOwner]
  interval_cases c <;> constructor <;> intro h <;> (try split_ifs at h ⊢) <;> omega

theorem exampleAddr_hmaps (j : Int) (_ : 0 ≤ j) (_ : j < 2) :
    0 ≤ exampleAddr.losortAddr.data j ∧ exampleAddr.losortAddr.data j < 2 := by
  simp only [exampleAddr]
  split_ifs <;> omega

theorem exampleAddr_hinj (j j2 : Int) (h0 : 0 ≤ j) (h2 : j < 2) (h0b : 0 ≤ j2) (h2b : j2 < 2)
    (h : exampleAddr.losortAddr.data j = exampleAddr.losortAddr.data j2) : j = j2 := by
  simp only [exampleAddr] at h
  split_ifs at h <;> omega

theorem exampleAddr_hnei (c : Int) (hc0 : 0 ≤ c) (hc : c < exampleAddr.size) (j : Int) :
    (exampleAddr.losortStartAddr.data c ≤ j ∧ j < exampleAddr.losortStartAddr.data (c + 1))
      ↔ (0 ≤ j ∧ j < 2 ∧ exampleNeighbour (exampleAddr.losortAddr.data j) = c) := by
  have hc4 : c < 4 := hc
  simp only [exampleAddr, exampleNeighbour]
  interval_cases c <;> constructor <;> intro h <;> (try split_ifs at h ⊢) <;> omega

/-- Witness of C2: cell 2 of the example mesh. -/
theorem matrixOperation_eq_referenceAmul_witness :
    (matrixOperationSum (fun c => exampleDiag c * examplePsi c) ⟨4, fun _ => 0⟩ exampleAddr
        (matrixCoeffsMultiplyFunctor examplePsi exampleUpper exampleNeighbour (fun x => x))
        (matrixCoeffsMultiplyFunctor examplePsi exampleLower exampleOwner (fun x => x))).data 2
      = exampleDiag 2 * examplePsi 2
          + ∑ f in (Finset.Ico 0 2).filter (fun f => exampleOwner f = 2),
              exampleUpper f * examplePsi (exampleNeighbour f)
          + ∑ f in (Finset.Ico 0 2).filter (fun f => exampleNeighbour f = 2),
              exampleLower f * examplePsi (exampleOwner f)
    ∧ (matrixOperationSum (fun c => exampleDiag c * examplePsi c) ⟨4, fun _ => 0⟩ exampleAddr
        (matrixCoeffsMultiplyFunctor examplePsi exampleUpper exampleNeighbour (fun x => x))
        (matrixCoeffsMultiplyFunctor examplePsi exampleLower exampleOwner (fun x => x))).data 2
      = referenceAmul exampleAddr.size 2 exampleOwner exampleNeighbour exampleDiag exampleUpper
          exampleLower examplePsi 2 :=
  matrixOperation_eq_referenceAmul ⟨4, fun _ => 0⟩ exampleAddr 2 exampleOwner exampleNeighbour
    exampleDiag exampleUpper exampleLower examplePsi exampleAddr_hown exampleAddr_hmaps
    exampleAddr_hinj exampleAddr_hnei 2 (by decide) (by decide)

/-! ## C3, C4, C5: the fixed-unroll fast reduction -/

/-- C3, as stated, fails: on `exampleAddr` cell 2 has owner-range size 0 and
neighbour-range size 1, yet with the matrix-vector accessors the fast reduction
returns `10` (it reads position 0 of the neighbour range as a face index) where the
generic reduction returns `20` (it reads face `losort[0] = 1`). -/
theorem matrixFastOperation_ne_matrixOperation_example :
    exampleAddr.ownerStartAddr.data (2 + 1) - exampleAddr.ownerStartAddr.data 2 ≤ 3
    ∧ exampleAddr.losortStartAddr.data (2 + 1) - exampleAddr.losortStartAddr.data 2 ≤ 3
    ∧ (matrixFastOperation (fun _ => (0 : ℚ)) ⟨4, fun _ => 0⟩ exampleAddr
        (matrixCoeffsMultiplyFunctor (fun _ => (1 : ℚ)) exampleUpper exampleNeighbour (fun x => x))
        (matrixCoeffsMultiplyFunctor (fun _ => (1 : ℚ)) exampleLower exampleOwner (fun x => x))).data 2
        = 10
    ∧ (matrixOperationSum (fun _ => (0 : ℚ)) ⟨4, fun _ => 0⟩ exampleAddr
        (matrixCoeffsMultiplyFunctor (fun _ => (1 : ℚ)) exampleUpper exampleNeighbour (fun x => x))
        (matrixCoeffsMultiplyFunctor (fun _ => (1 : ℚ)) exampleLower exampleOwner (fun x => x))).data 2
        = 20
    ∧ (matrixFastOperation (fun _ => (0 : ℚ)) ⟨4, fun _ => 0⟩ exampleAddr
        (matrixCoeffsMultiplyFunctor (fun _ => (1 : ℚ)) exampleUpper exampleNeighbour (fun x => x))
        (matrixCoeffsMultiplyFunctor (fun _ => (1 : ℚ)) exampleLower exampleOwner (fun x => x))).data 2
      ≠ (matrixOperationSum (fun _ => (0 : ℚ)) ⟨4, fun _ => 0⟩ exampleAddr
        (matrixCoeffsMultiplyFunctor (fun _ => (1 : ℚ)) exampleUpper exampleNeighbour (fun x => x))
        (matrixCoeffsMultiplyFunctor (fun _ => (1 : ℚ)) exampleLower exampleOwner (fun x => x))).data 2 := by
  have hf : (matrixFastOperation (fun _ => (0 : ℚ)) ⟨4, fun _ => 0⟩ exampleAddr
        (matrixCoeffsMultiplyFunctor (fun _ => (1 : ℚ)) exampleUpper exampleNeighbour (fun x => x))
        (matrixCoeffsMultiplyFunctor (fun _ => (1 : ℚ)) exampleLower exampleOwner (fun x => x))).data 2
        = 10 := by
    simp only [matrixFastOperation, thrustTransform_counting_apply]
    norm_num [exampleAddr, lduAddressingFastFunctor, lduAddressingFastFunctorState_unrolled,
      forLabel, loopFrom, matrixCoeffsMultiplyFunctor, exampleLower, exampleOwner]
  have hg : (matrixOperationSum (fun _ => (0 : ℚ)) ⟨4, fun _ => 0⟩ exampleAddr
        (matrixCoeffsMultiplyFunctor (fun _ => (1 : ℚ)) exampleUpper exampleNeighbour (fun x => x))
        (matrixCoeffsMultiplyFunctor (fun _ => (1 : ℚ)) exampleLower exampleOwner (fun x => x))).data 2
        = 20 := by
    simp only [matrixOperationSum, matrixOperation, thrustTransform_counting_apply]
    norm_num [exampleAddr, lduAddressingFunctor, sumOp,
      forLabel, loopFrom, matrixCoeffsMultiplyFunctor, exampleLower, exampleOwner]
  refine ⟨by decide, by decide, hf, hg, ?_⟩
  rw [hf, hg]
  norm_num

/-- C3, amended: for every addressing, every pair of accessors and every cell `c` whose
owner-range size and neighbour-range size are at most 3 and on whose neighbour range
the neighbour accessor gives the same value at the position `j` and at the face
`losort[j]` (as it does when `losort` is the identity there), the fast functor returns
for every input `d` the value the generic functor with sum operators returns, and
`matrixFastOperation` leaves in `out[c]` what `matrixOperation` with sum operators
leaves there. Only the law `x + 0 = x` is used. -/
theorem matrixFastOperation_eq_matrixOperation_small {R : Type} [AddZeroClass R]
    (inp : Int → R) (out : gpuList R) (addr : lduAddressing) (o n : Int → Int → R) (c : Int)
    (ho : addr.ownerStartAddr.data (c + 1) - addr.ownerStartAddr.data c ≤ 3)
    (hn : addr.losortStartAddr.data (c + 1) - addr.losortStartAddr.data c ≤ 3)
    (hl : ∀ j, addr.losortStartAddr.data c ≤ j → j < addr.losortStartAddr.data (c + 1) →
      n c (addr.losortAddr.data j) = n c j) :
    (∀ d : R,
      lduAddressingFastFunctor addr.ownerStartAddr.data addr.losortStartAddr.data o n c d
        = lduAddressingFunctor addr.ownerStartAddr.data addr.losortStartAddr.data
            addr.losortAddr.data o n sumOp sumOp c d)
    ∧ (matrixFastOperation inp out addr o n).data c
        = (matrixOperationSum inp out addr o n).data c := by
  have h := fun d => lduAddressingFastFunctor_eq_generic_small addr.ownerStartAddr.data
    addr.losortStartAddr.data addr.losortAddr.data o n c d ho hn hl
  refine ⟨h, ?_⟩
  simp only [matrixFastOperation, matrixOperationSum, matrixOperation,
    thrustTransform_counting_apply, h]

/-- Witness of C3 amended: cell 2 of `exampleAddr` with a face-independent neighbour accessor. -/
theorem matrixFastOperation_eq_matrixOperation_small_witness :
    exampleAddr.ownerStartAddr.data (2 + 1) - exampleAddr.ownerStartAddr.data 2 ≤ 3
    ∧ exampleAddr.losortStartAddr.data (2 + 1) - exampleAddr.losortStartAddr.data 2 ≤ 3
    ∧ ((∀ d : ℚ,
        lduAddressingFastFunctor exampleAddr.ownerStartAddr.data
            exampleAddr.losortStartAddr.data
            (matrixCoeffsFunctor exampleUpper (fun x => x))
            (matrixCoeffsFunctor (fun _ => (5 : ℚ)) (fun x => x)) 2 d
          = lduAddressingFunctor exampleAddr.ownerStartAddr.data
              exampleAddr.losortStartAddr.data exampleAddr.losortAddr.data
              (matrixCoeffsFunctor exampleUpper (fun x => x))
              (matrixCoeffsFunctor (fun _ => (5 : ℚ)) (fun x => x)) sumOp sumOp 2 d)
      ∧ (matrixFastOperation (fun _ => (0 : ℚ)) ⟨4, fun _ => 0⟩ exampleAddr
            (matrixCoeffsFunctor exampleUpper (fun x => x))
            (matrixCoeffsFunctor (fun _ => (5 : ℚ)) (fun x => x))).data 2
          = (matrixOperationSum (fun _ => (0 : ℚ)) ⟨4, fun _ => 0⟩ exampleAddr
            (matrixCoeffsFunctor exampleUpper (fun x => x))
            (matrixCoeffsFunctor (fun _ => (5 : ℚ)) (fun x => x))).data 2) :=
  ⟨by decide, by decide,
    matrixFastOperation_eq_matrixOperation_small (fun _ => (0 : ℚ)) ⟨4, fun _ => 0⟩ exampleAddr
      (matrixCoeffsFunctor exampleUpper (fun x => x))
      (matrixCoeffsFunctor (fun _ => (5 : ℚ)) (fun x => x)) 2 (by decide) (by decide)
      (fun _ _ _ => rfl)⟩

/-- C4: over exact arithmetic (any commutative additive monoid) the fast reduction
returns `d + ∑ i in [0, oSize), oFun(id, ownStart[id] + i)
+ ∑ i in [0, min nSize 3), nFun(id, neiStart[id] + i)` for every cell, whatever the
range sizes: every owner-face contribution is included and only the first three
neighbour-range contributions are. -/
theorem lduAddressingFastFunctor_eq_sum {R : Type} [AddCommMonoid R]
    (ownStart neiStart : Int → Int) (oFun nFun : Int → Int → R) (id : Int) (d : R) :
    lduAddressingFastFunctor ownStart neiStart oFun nFun id d
      = d + ∑ i in Finset.Ico 0 (ownStart (id + 1) - ownStart id), oFun id (ownStart id + i)
          + ∑ i in Finset.Ico 0 (min (neiStart (id + 1) - neiStart id) 3),
              nFun id (neiStart id + i) :=
  lduAddressingFastFunctor_value ownStart neiStart oFun nFun id d

/-- C5: for every cell with neighbour-range size above 3, over exact arithmetic (any
commutative additive group), (1) the fast functor returns the same value for any two
neighbour accessors that agree, for this cell, outside the range positions
`neiStart[id] + 3, ..., neiStart[id+1] - 1`; (2) the full sum `d` + all owner
contributions + all neighbour-range contributions, minus the fast result, is the sum
of `nFun(id, neiStart[id] + i)` over `i` in `[3, nSize)`; and (3) there is an input of
neighbour valence 4 (one cell, no owner face, every neighbour contribution `1`) on which
the fast result differs from the full sum. -/
theorem lduAddressingFastFunctor_loses_neighbour_excess :
    (∀ (R : Type) [AddCommGroup R] (ownStart neiStart : Int → Int) (oFun nFun : Int → Int → R)
        (id : Int) (d : R), 3 < neiStart (id + 1) - neiStart id →
      (∀ nFun2 : Int → Int → R,
          (∀ f, ¬ (neiStart id + 3 ≤ f ∧ f < neiStart (id + 1)) → nFun2 id f = nFun id f) →
          lduAddressingFastFunctor ownStart neiStart oFun nFun2 id d
            = lduAddressingFastFunctor ownStart neiStart oFun nFun id d)
      ∧ (d + ∑ i in Finset.Ico 0 (ownStart (id + 1) - ownStart id), oFun id (ownStart id + i)
            + ∑ i in Finset.Ico 0 (neiStart (id + 1) - neiStart id), nFun id (neiStart id + i))
          - lduAddressingFastFunctor ownStart neiStart oFun nFun id d
          = ∑ i in Finset.Ico 3 (neiStart (id + 1) - neiStart id), nFun id (neiStart id + i))
    ∧ (∃ (ownStart neiStart : Int → Int) (oFun nFun : Int → Int → ℚ) (id : Int) (d : ℚ),
        neiStart (id + 1) - neiStart id = 4
        ∧ lduAddressingFastFunctor ownStart neiStart oFun nFun id d
            ≠ d + ∑ i in Finset.Ico 0 (ownStart (id + 1) - ownStart id), oFun id (ownStart id + i)
                + ∑ i in Finset.Ico 0 (neiStart (id + 1) - neiStart id),
                    nFun id (neiStart id + i)) := by
  have hdef : ∀ (R : Type) [AddCommGroup R] (ownStart neiStart : Int → Int)
      (oFun nFun : Int → Int → R) (id : Int) (d : R),
      (d + ∑ i in Finset.Ico 0 (ownStart (id + 1) - ownStart id), oFun id (ownStart id + i)
            + ∑ i in Finset.Ico 0 (neiStart (id + 1) - neiStart id), nFun id (neiStart id + i))
          - lduAddressingFastFunctor ownStart neiStart oFun nFun id d
          = ∑ i in Finset.Ico 3 (neiStart (id + 1) - neiStart id), nFun id (neiStart id + i) := by
    intro R _ ownStart neiStart oFun nFun id d
    rw [lduAddressingFastFunctor_value,
      sum_Ico_three_split (fun i => nFun id (neiStart id + i)),
      sum_Ico_min_three (fun i => nFun id (neiStart id + i))]
    abel
  refine ⟨fun R _ ownStart neiStart oFun nFun id d _ =>
      ⟨?_, hdef R ownStart neiStart oFun nFun id d⟩,
    exampleOwnStart0, exampleNeiStart4, exampleZeros, exampleOnes, 0, 0, by decide, ?_⟩
  · intro nFun2 hagree
    rw [lduAddressingFastFunctor_value, lduAddressingFastFunctor_value]
    congr 1
    refine Finset.sum_congr rfl (fun i hi => hagree _ ?_)
    have h3 := (Finset.mem_Ico.mp hi).2
    have := lt_of_lt_of_le h3 (min_le_right _ _)
    omega
  · intro heq
    have h := hdef ℚ exampleOwnStart0 exampleNeiStart4 exampleZeros exampleOnes 0 0
    rw [heq] at h
    norm_num [exampleNeiStart4, exampleOnes] at h

/-- Witness of C5: one cell whose neighbour range is `[0, 4)`, every neighbour
contribution being `1`: the full sum is `4`, the fast functor returns `3`. -/
theorem lduAddressingFastFunctor_loses_neighbour_excess_witness :
    3 < exampleNeiStart4 (0 + 1) - exampleNeiStart4 0
    ∧ ((0 + ∑ i in Finset.Ico 0 (exampleOwnStart0 (0 + 1) - exampleOwnStart0 0),
              exampleZeros 0 (exampleOwnStart0 0 + i)
          + ∑ i in Finset.Ico 0 (exampleNeiStart4 (0 + 1) - exampleNeiStart4 0),
              exampleOnes 0 (exampleNeiStart4 0 + i))
        - lduAddressingFastFunctor exampleOwnStart0 exampleNeiStart4 exampleZeros exampleOnes 0 0
        = ∑ i in Finset.Ico 3 (exampleNeiStart4 (0 + 1) - exampleNeiStart4 0),
            exampleOnes 0 (exampleNeiStart4 0 + i))
    ∧ lduAddressingFastFunctor exampleOwnStart0 exampleNeiStart4 exampleZeros exampleOnes 0 0
        = 3 :=
  ⟨by decide,
    ((lduAddressingFastFunctor_loses_neighbour_excess).1 ℚ exampleOwnStart0 exampleNeiStart4
      exampleZeros exampleOnes 0 0 (by decide)).2,
    by
      rw [lduAddressingFastFunctor, lduAddressingFastFunctorState_unrolled]
      norm_num [exampleNeiStart4, exampleOwnStart0, exampleOnes, exampleZeros, forLabel,
        loopFrom]⟩

/-! ## C6, C7: patch reduction -/

/-- C6: for a well-formed grouping of a patch with `P` faces and face-to-cell map
`faceCells` (the entries of `patchSortCells` are pairwise distinct; every position of
the range of group `g` holds a patch face owned by `patchSortCells[g]`; every patch
face stands at exactly one position of the groups' ranges), `matrixPatchOperation` with
the sum operator leaves in every cell `c`, over exact arithmetic,
`out[c] + ∑ over patch faces f with faceCells[f] = c of fn(c, f)`, which is the result
of the sequential loop `out[faceCells[f]] += fn(faceCells[f], f)`; several faces may
share one owning cell. Size and monotonicity of the range table are not needed. -/
theorem matrixPatchOperation_eq_naive {R : Type} [AddCommMonoid R] (patchI : Int)
    (out : gpuList R) (addr : lduAddressing) (fn : Int → Int → R) (P : Int)
    (faceCells : Int → Int)
    (hdistinct : ∀ g g2 : Int, 0 ≤ g → g < (addr.patchSortCells patchI).size →
      0 ≤ g2 → g2 < (addr.patchSortCells patchI).size →
      (addr.patchSortCells patchI).data g = (addr.patchSortCells patchI).data g2 → g = g2)
    (hgroup : ∀ g : Int, 0 ≤ g → g < (addr.patchSortCells patchI).size →
      ∀ j : Int, (addr.patchSortStartAddr patchI).data g ≤ j →
        j < (addr.patchSortStartAddr patchI).data (g + 1) →
        0 ≤ (addr.patchSortAddr patchI).data j ∧ (addr.patchSortAddr patchI).data j < P
          ∧ faceCells ((addr.patchSortAddr patchI).data j) = (addr.patchSortCells patchI).data g)
    (honce : ∀ f : Int, 0 ≤ f → f < P →
      ∃! j : Int, (∃ g : Int, 0 ≤ g ∧ g < (addr.patchSortCells patchI).size
          ∧ (addr.patchSortStartAddr patchI).data g ≤ j
          ∧ j < (addr.patchSortStartAddr patchI).data (g + 1))
        ∧ (addr.patchSortAddr patchI).data j = f)
    (c : Int) :
    (matrixPatchOperationSum patchI out addr fn).data c
        = out.data c + ∑ f in (Finset.Ico 0 P).filter (fun f => faceCells f = c), fn c f
    ∧ (matrixPatchOperationSum patchI out addr fn).data c
        = naivePatchAccumulate P faceCells fn out.data c := by
  have key : (matrixPatchOperationSum patchI out addr fn).data c
      = out.data c + ∑ f in (Finset.Ico 0 P).filter (fun f => faceCells f = c), fn c f := by
    unfold matrixPatchOperationSum matrixPatchOperation
    simp only
    by_cases hex : ∃ g : Int, 0 ≤ g ∧ g < (addr.patchSortCells patchI).size
        ∧ (addr.patchSortCells patchI).data g = c
    · obtain ⟨g, hg0, hgn, rfl⟩ := hex
      rw [forLabel_permuted_hit _ _ _ _ hdistinct g hg0 hgn, lduAddressingPatchFunctor_sum]
      congr 1
      refine Finset.sum_nbij (fun j => (addr.patchSortAddr patchI).data j) ?_ ?_ ?_
        (fun _ _ => rfl)
      · intro j hj
        have hj2 := Finset.mem_Ico.mp hj
        have := hgroup g hg0 hgn j hj2.1 hj2.2
        exact Finset.mem_filter.mpr ⟨Finset.mem_Ico.mpr ⟨this.1, this.2.1⟩, this.2.2⟩
      · intro j hj j2 hj2 heq
        have hj1 := Finset.mem_Ico.mp (Finset.mem_coe.mp hj)
        have hj3 := Finset.mem_Ico.mp (Finset.mem_coe.mp hj2)
        have hf := hgroup g hg0 hgn j hj1.1 hj1.2
        exact (honce _ hf.1 hf.2.1).unique ⟨⟨g, hg0, hgn, hj1.1, hj1.2⟩, rfl⟩
          ⟨⟨g, hg0, hgn, hj3.1, hj3.2⟩, heq.symm⟩
      · intro f hf
        have hf2 := Finset.mem_filter.mp (Finset.mem_coe.mp hf)
        have hf3 := Finset.mem_Ico.mp hf2.1
        obtain ⟨j, ⟨⟨g2, h20, h2n, hlo, hhi⟩, hsa⟩, _⟩ := honce f hf3.1 hf3.2
        have hc := (hgroup g2 h20 h2n j hlo hhi).2.2
        rw [hsa, hf2.2] at hc
        have hgg : g = g2 := hdistinct g g2 hg0 hgn h20 h2n hc
        subst hgg
        exact ⟨j, Finset.mem_coe.mpr (Finset.mem_Ico.mpr ⟨hlo, hhi⟩), hsa⟩
    · rw [forLabel_permuted_frame _ _ _ _ c (fun g h0 hn hc => hex ⟨g, h0, hn, hc⟩)]
      have hempty : (Finset.Ico 0 P).filter (fun f => faceCells f = c) = ∅ := by
        refine Finset.filter_eq_empty_iff.mpr (fun f hf hfc => hex ?_)
        have hf3 := Finset.mem_Ico.mp hf
        obtain ⟨j, ⟨⟨g2, h20, h2n, hlo, hhi⟩, hsa⟩, _⟩ := honce f hf3.1 hf3.2
        have hc := (hgroup g2 h20 h2n j hlo hhi).2.2
        rw [hsa, hfc] at hc
        exact ⟨g2, h20, h2n, hc.symm⟩
      rw [hempty]
      simp
  exact ⟨key, by rw [key, naivePatchAccumulate_apply]⟩

/-- C7: `matrixPatchOperation` leaves the length of `out` unchanged and leaves `out[c]`
unchanged for every cell `c` that does not occur in `patchSortCells(patchI)`, for every
output array, patch grouping, accessor and operator. -/
theorem matrixPatchOperation_frame {T : Type} (patchI : Int) (out : gpuList T)
    (addr : lduAddressing) (f : Int → Int → T) (o : T → T → T) :
    (matrixPatchOperation patchI out addr f o).size = out.size
    ∧ ∀ c : Int,
        (∀ g : Int, 0 ≤ g → g < (addr.patchSortCells patchI).size →
          (addr.patchSortCells patchI).data g ≠ c) →
        (matrixPatchOperation patchI out addr f o).data c = out.data c := by
  refine ⟨rfl, fun c hc => ?_⟩
  unfold matrixPatchOperation
  exact forLabel_permuted_frame _ _ _ _ c hc

theorem examplePatchAddr_hdistinct (g g2 : Int) (h0 : 0 ≤ g)
    (hg : g < (examplePatchAddr.patchSortCells 0).size) (h0b : 0 ≤ g2)
    (hg2 : g2 < (examplePatchAddr.patchSortCells 0).size)
    (h : (examplePatchAddr.patchSortCells 0).data g = (examplePatchAddr.patchSortCells 0).data g2) :
    g = g2 := by
  have a : g < 2 := hg
  have b : g2 < 2 := hg2
  simp only [examplePatchAddr] at h
  split_ifs at h <;> omega

theorem examplePatchAddr_hgroup (g : Int) (h0 : 0 ≤ g)
    (hg : g < (examplePatchAddr.patchSortCells 0).size) (j : Int)
    (hlo : (examplePatchAddr.patchSortStartAddr 0).data g ≤ j)
    (hhi : j < (examplePatchAddr.patchSortStartAddr 0).data (g + 1)) :
    0 ≤ (examplePatchAddr.patchSortAddr 0).data j ∧ (examplePatchAddr.patchSortAddr 0).data j < 3
      ∧ exampleFaceCells ((examplePatchAddr.patchSortAddr 0).data j)
          = (examplePatchAddr.patchSortCells 0).data g := by
  have a : g < 2 := hg
  simp only [examplePatchAddr, exampleFaceCells] at hlo hhi ⊢
  interval_cases g
  · have hj : j = 0 := by norm_num at hlo hhi; omega
    subst hj
    decide
  · have hj : j = 1 ∨ j = 2 := by norm_num at hlo hhi; omega
    rcases hj with hj | hj <;> subst hj <;> decide

theorem examplePatchAddr_honce (f : Int) (h0 : 0 ≤ f) (h3 : f < 3) :
    ∃! j : Int, (∃ g : Int, 0 ≤ g ∧ g < (examplePatchAddr.patchSortCells 0).size
        ∧ (examplePatchAddr.patchSortStartAddr 0).data g ≤ j
        ∧ j < (examplePatchAddr.patchSortStartAddr 0).data (g + 1))
      ∧ (examplePatchAddr.patchSortAddr 0).data j = f := by
  have hrange : ∀ j : Int, (∃ g : Int, 0 ≤ g ∧ g < (examplePatchAddr.patchSortCells 0).size
        ∧ (examplePatchAddr.patchSortStartAddr 0).data g ≤ j
        ∧ j < (examplePatchAddr.patchSortStartAddr 0).data (g + 1)) ↔ (0 ≤ j ∧ j < 3) := by
    intro j
    constructor
    · rintro ⟨g, hg0, hg2, hlo, hhi⟩
      have a : g < 2 := hg2
      simp only [examplePatchAddr] at hlo hhi
      interval_cases g <;> norm_num at hlo hhi <;> omega
    · intro hj
      by_cases h : j = 0
      · exact ⟨0, by decide, by decide, by subst h; decide, by subst h; decide⟩
      · refine ⟨1, by decide, by decide, ?_, ?_⟩
        · show (1 : Int) ≤ j
          omega
        · show j < 3
          omega
  simp only [hrange]
  interval_cases f
  · refine ⟨1, ⟨by decide, by decide⟩, ?_⟩
    rintro j ⟨⟨hj0, hj3⟩, hj⟩
    simp only [examplePatchAddr] at hj
    split_ifs at hj <;> omega
  · refine ⟨0, ⟨by decide, by decide⟩, ?_⟩
    rintro j ⟨⟨hj0, hj3⟩, hj⟩
    simp only [examplePatchAddr] at hj
    split_ifs at hj <;> omega
  · refine ⟨2, ⟨by decide, by decide⟩, ?_⟩
    rintro j ⟨⟨hj0, hj3⟩, hj⟩
    simp only [examplePatchAddr] at hj
    split_ifs at hj <;> omega

/-- Witness of C6: cell 2 of the example patch, which owns the two boundary faces 0 and
2; from `out[2] = 100` the reduction leaves `100 + fn(2, 0) + fn(2, 2) = 142`. -/
theorem matrixPatchOperation_eq_naive_witness :
    ((matrixPatchOperationSum 0 ⟨3, fun _ => 100⟩ examplePatchAddr exampleFn).data 2
        = (100 : ℚ) + ∑ f in (Finset.Ico 0 3).filter (fun f => exampleFaceCells f = 2),
            exampleFn 2 f
      ∧ (matrixPatchOperationSum 0 ⟨3, fun _ => 100⟩ examplePatchAddr exampleFn).data 2
        = naivePatchAccumulate 3 exampleFaceCells exampleFn (fun _ => 100) 2)
    ∧ naivePatchAccumulate 3 exampleFaceCells exampleFn (fun _ => 100) 2 = 142 :=
  ⟨matrixPatchOperation_eq_naive 0 ⟨3, fun _ => 100⟩ examplePatchAddr exampleFn 3
      exampleFaceCells examplePatchAddr_hdistinct examplePatchAddr_hgroup
      examplePatchAddr_honce 2,
    by norm_num [naivePatchAccumulate, forLabel, loopFrom, writeAt, exampleFaceCells, exampleFn]⟩

/-- Witness of C7: cell 1 of the example patch owns no boundary face and keeps its value. -/
theorem matrixPatchOperation_frame_witness :
    (∀ g : Int, 0 ≤ g → g < (examplePatchAddr.patchSortCells 0).size →
        (examplePatchAddr.patchSortCells 0).data g ≠ 1)
    ∧ (matrixPatchOperation 0 ⟨3, fun _ => (100 : ℚ)⟩ examplePatchAddr exampleFn sumOp).data 1
        = 100 :=
  ⟨fun g _ _ h => by simp only [examplePatchAddr] at h; split_ifs at h <;> omega,
    (matrixPatchOperation_frame 0 ⟨3, fun _ => (100 : ℚ)⟩ examplePatchAddr exampleFn sumOp).2 1
      (fun g _ _ h => by simp only [examplePatchAddr] at h; split_ifs at h <;> omega)⟩

/-! ## C8, C9, C10: agglomeration reducers -/

/-- C8: symmetric off-diagonal agglomeration returns `s + ∑ i in [start, end), ff[sort[i]]`
over exact arithmetic (any commutative additive monoid), for every range, also an
empty or inverted one; with `s = 0` and two fine coefficients `2` and `3` in the range
the result is `5`. -/
theorem GAMGSolverAgglomerateSymFunctor_eq_sum :
    (∀ (R : Type) [AddCommMonoid R] (ff : Int → R) (sort : Int → Int) (s : R) (start end_ : Int),
      GAMGSolverAgglomerateSymFunctor ff sort s (start, end_)
        = s + ∑ i in Finset.Ico start end_, ff (sort i))
    ∧ GAMGSolverAgglomerateSymFunctor (R := ℚ) (fun k => if k = 7 then 2 else if k = 4 then 3 else 100)
        (fun i => if i = 0 then 7 else 4) 0 (0, 2) = 5 := by
  refine ⟨fun R _ ff sort s start end_ => ?_, ?_⟩
  · unfold GAMGSolverAgglomerateSymFunctor
    exact forLabel_add (fun i => ff (sort i)) start end_ s
  · norm_num [GAMGSolverAgglomerateSymFunctor, forLabel, loopFrom]

/-- C9: symmetric diagonal agglomeration returns `s + 2 * ∑ i in [start, end), ff[sort[i]]`
over exact arithmetic (any ring), its increment is twice the increment of
`GAMGSolverAgglomerateSymFunctor` on the same range, and fine coefficients `2` and `3`
add `10` to the diagonal. -/
theorem GAMGSolverAgglomerateDiagSymFunctor_eq_sum :
    (∀ (R : Type) [Ring R] (ff : Int → R) (sort : Int → Int) (s : R) (start end_ : Int),
      GAMGSolverAgglomerateDiagSymFunctor ff sort s (start, end_)
          = s + 2 * ∑ i in Finset.Ico start end_, ff (sort i)
      ∧ GAMGSolverAgglomerateDiagSymFunctor ff sort s (start, end_) - s
          = 2 * (GAMGSolverAgglomerateSymFunctor ff sort s (start, end_) - s))
    ∧ GAMGSolverAgglomerateDiagSymFunctor (R := ℚ)
        (fun k => if k = 7 then 2 else if k = 4 then 3 else 100)
        (fun i => if i = 0 then 7 else 4) 0 (0, 2) = 10 := by
  refine ⟨fun R _ ff sort s start end_ => ?_, ?_⟩
  · have h1 : GAMGSolverAgglomerateDiagSymFunctor ff sort s (start, end_)
        = s + 2 * ∑ i in Finset.Ico start end_, ff (sort i) := by
      unfold GAMGSolverAgglomerateDiagSymFunctor
      simp only
      rw [forLabel_add (fun i => 2 * ff (sort i)) start end_ s, Finset.mul_sum]
    have h2 : GAMGSolverAgglomerateSymFunctor ff sort s (start, end_)
        = s + ∑ i in Finset.Ico start end_, ff (sort i) := by
      unfold GAMGSolverAgglomerateSymFunctor
      exact forLabel_add (fun i => ff (sort i)) start end_ s
    refine ⟨h1, ?_⟩
    rw [h1, h2]
    simp
  · norm_num [GAMGSolverAgglomerateDiagSymFunctor, forLabel, loopFrom]

/-- C10: asymmetric off-diagonal agglomeration returns the pair
`(uc + ∑ (uf if not flip else lf), lc + ∑ (lf if not flip else uf))`, the sums over
`i` in `[start, end)` at index `sort[i]`, over exact arithmetic; from `(0, 0)` one
flipped fine face (upper `4`, lower `1`) and one non-flipped fine face (upper `2`,
lower `1/2`) give coarse upper `3` and coarse lower `9/2`. -/
theorem GAMGSolverAgglomerateAsymFunctor_eq_sum :
    (∀ (R : Type) [AddCommMonoid R] (uf lf : Int → R) (flip : Int → Bool) (sort : Int → Int)
        (uc lc : R) (start end_ : Int),
      GAMGSolverAgglomerateAsymFunctor uf lf flip sort (uc, lc) (start, end_)
        = (uc + ∑ i in Finset.Ico start end_,
                  (if !flip (sort i) then uf (sort i) else lf (sort i)),
           lc + ∑ i in Finset.Ico start end_,
                  (if !flip (sort i) then lf (sort i) else uf (sort i))))
    ∧ GAMGSolverAgglomerateAsymFunctor (R := ℚ)
        (fun k => if k = 5 then 4 else if k = 2 then 2 else 100)
        (fun k => if k = 5 then 1 else if k = 2 then 1 / 2 else 100)
        (fun k => decide (k = 5))
        (fun i => if i = 0 then 5 else 2) (0, 0) (0, 2) = (3, 9 / 2) := by
  refine ⟨fun R _ uf lf flip sort uc lc start end_ => ?_, ?_⟩
  · unfold GAMGSolverAgglomerateAsymFunctor
    simp only
    have hbody : (fun i (acc : R × R) =>
          if (!flip (sort i)) = true then (acc.1 + uf (sort i), acc.2 + lf (sort i))
          else (acc.1 + lf (sort i), acc.2 + uf (sort i)))
        = (fun i (acc : R × R) =>
          ((fun j out => out + (if !flip (sort j) then uf (sort j) else lf (sort j))) i acc.1,
           (fun j out => out + (if !flip (sort j) then lf (sort j) else uf (sort j))) i acc.2)) := by
      funext i acc
      by_cases h : (!flip (sort i)) = true <;> simp [h]
    rw [hbody]
    refine (forLabel_pair
      (fun j out => out + (if !flip (sort j) then uf (sort j) else lf (sort j)))
      (fun j out => out + (if !flip (sort j) then lf (sort j) else uf (sort j)))
      start end_ uc lc).trans ?_
    rw [forLabel_add, forLabel_add]
  · norm_num [GAMGSolverAgglomerateAsymFunctor, forLabel, loopFrom]

/-! ## C11: asymmetric diagonal agglomeration -/

/-- C11: asymmetric diagonal agglomeration returns
`s + ∑ i in [start, end), (uf[sort[i]] + lf[sort[i]])` over exact arithmetic (any
commutative additive monoid), for every range; the functor holds no flip table, and
for every assignment `flip` of flip flags this value is `s` plus the sum of the
oriented upper and the oriented lower contribution of each fine face. -/
theorem GAMGSolverAgglomerateDiagAsymFunctor_eq_sum {R : Type} [AddCommMonoid R]
    (uf lf : Int → R) (sort : Int → Int) (s : R) (start end_ : Int) :
    GAMGSolverAgglomerateDiagAsymFunctor uf lf sort s (start, end_)
        = s + ∑ i in Finset.Ico start end_, (uf (sort i) + lf (sort i))
    ∧ ∀ flip : Int → Bool,
        GAMGSolverAgglomerateDiagAsymFunctor uf lf sort s (start, end_)
          = s + ∑ i in Finset.Ico start end_,
              ((if !flip (sort i) then uf (sort i) else lf (sort i))
                + (if !flip (sort i) then lf (sort i) else uf (sort i))) := by
  have h : GAMGSolverAgglomerateDiagAsymFunctor uf lf sort s (start, end_)
      = s + ∑ i in Finset.Ico start end_, (uf (sort i) + lf (sort i)) := by
    unfold GAMGSolverAgglomerateDiagAsymFunctor
    exact forLabel_add (fun i => uf (sort i) + lf (sort i)) start end_ s
  refine ⟨h, fun flip => ?_⟩
  rw [h]
  congr 1
  refine Finset.sum_congr rfl (fun i _ => ?_)
  by_cases hf : (!flip (sort i)) = true
  · rw [if_pos hf, if_pos hf]
  · rw [if_neg hf, if_neg hf, add_comm]

/-! ## C14, C16: coefficient accessors -/

/-- C14: `matrixCoeffsMultiplyFunctor(psi, coeffs, addr, op)` returns
`op(coeffs[face] * psi[addr[face]])` for every cell argument and face index, and the
result does not depend on the cell argument. -/
theorem matrixCoeffsMultiplyFunctor_eq {T LU : Type} [HMul LU T T]
    (psi : Int → T) (coeffs : Int → LU) (addr : Int → Int) (op : T → T)
    (cell cell2 face : Int) :
    matrixCoeffsMultiplyFunctor psi coeffs addr op cell face
        = op (coeffs face * psi (addr face))
    ∧ matrixCoeffsMultiplyFunctor psi coeffs addr op cell face
        = matrixCoeffsMultiplyFunctor psi coeffs addr op cell2 face :=
  ⟨rfl, rfl⟩

/-- C16: `matrixCoeffsFunctor(coeffs, op)` returns `op(coeffs[face])` for every cell
argument and face index, independent of the cell argument. -/
theorem matrixCoeffsFunctor_eq {T : Type} (coeffs : Int → T) (op : T → T)
    (cell cell2 face : Int) :
    matrixCoeffsFunctor coeffs op cell face = op (coeffs face)
    ∧ matrixCoeffsFunctor coeffs op cell face = matrixCoeffsFunctor coeffs op cell2 face :=
  ⟨rfl, rfl⟩

/-! ## C20: the fast path and the identity neighbour order -/

/-- C20: for every cell with neighbour-range size at most 3 and any owner-range size,
over exact arithmetic (any commutative additive monoid), the fast functor returns what
the generic functor with sum operators returns when the identity array
(`losort[j] = j`) stands in place of `losort`, with the same `ownStart`, `neiStart`
and accessors; and `matrixFastOperation` leaves in `out[c]` what `matrixOperation`
with sum operators leaves there on the addressing whose `losortAddr` is the identity. -/
theorem lduAddressingFastFunctor_eq_generic_identity {R : Type} [AddCommMonoid R]
    (inp : Int → R) (out : gpuList R) (addr : lduAddressing) (o n : Int → Int → R) (c : Int)
    (hn : addr.losortStartAddr.data (c + 1) - addr.losortStartAddr.data c ≤ 3) :
    (∀ d : R,
      lduAddressingFastFunctor addr.ownerStartAddr.data addr.losortStartAddr.data o n c d
        = lduAddressingFunctor addr.ownerStartAddr.data addr.losortStartAddr.data
            (fun j => j) o n sumOp sumOp c d)
    ∧ (matrixFastOperation inp out addr o n).data c
        = (matrixOperationSum inp out
            { addr with losortAddr := ⟨addr.losortAddr.size, fun j => j⟩ } o n).data c := by
  have h := fun d => lduAddressingFastFunctor_eq_identity addr.ownerStartAddr.data
    addr.losortStartAddr.data o n c d hn
  refine ⟨h, ?_⟩
  simp only [matrixFastOperation, matrixOperationSum, matrixOperation,
    thrustTransform_counting_apply, h]

/-- Witness of C20: cell 2 of `exampleAddr` (owner-range size 0, neighbour-range size 1)
with the matrix-vector accessors. -/
theorem lduAddressingFastFunctor_eq_generic_identity_witness :
    exampleAddr.losortStartAddr.data (2 + 1) - exampleAddr.losortStartAddr.data 2 ≤ 3
    ∧ ((∀ d : ℚ,
        lduAddressingFastFunctor exampleAddr.ownerStartAddr.data
            exampleAddr.losortStartAddr.data
            (matrixCoeffsMultiplyFunctor examplePsi exampleUpper exampleNeighbour (fun x => x))
            (matrixCoeffsMultiplyFunctor examplePsi exampleLower exampleOwner (fun x => x)) 2 d
          = lduAddressingFunctor exampleAddr.ownerStartAddr.data
              exampleAddr.losortStartAddr.data (fun j => j)
              (matrixCoeffsMultiplyFunctor examplePsi exampleUpper exampleNeighbour (fun x => x))
              (matrixCoeffsMultiplyFunctor examplePsi exampleLower exampleOwner (fun x => x))
              sumOp sumOp 2 d)
      ∧ (matrixFastOperation (fun _ => (0 : ℚ)) ⟨4, fun _ => 0⟩ exampleAddr
            (matrixCoeffsMultiplyFunctor examplePsi exampleUpper exampleNeighbour (fun x => x))
            (matrixCoeffsMultiplyFunctor examplePsi exampleLower exampleOwner (fun x => x))).data 2
          = (matrixOperationSum (fun _ => (0 : ℚ)) ⟨4, fun _ => 0⟩
            { exampleAddr with losortAddr := ⟨exampleAddr.losortAddr.size, fun j => j⟩ }
            (matrixCoeffsMultiplyFunctor examplePsi exampleUpper exampleNeighbour (fun x => x))
            (matrixCoeffsMultiplyFunctor examplePsi exampleLower exampleOwner (fun x => x))).data
              2) :=
  ⟨by decide,
    lduAddressingFastFunctor_eq_generic_identity (fun _ => (0 : ℚ)) ⟨4, fun _ => 0⟩ exampleAddr
      (matrixCoeffsMultiplyFunctor examplePsi exampleUpper exampleNeighbour (fun x => x))
      (matrixCoeffsMultiplyFunctor examplePsi exampleLower exampleOwner (fun x => x)) 2
      (by decide)⟩

/-! ## C12: per-cell independence of `matrixOperation` -/

/-- C12: `matrixOperation` writes exactly the slots of the cells `0 ≤ c < addr.size()`,
one per cell: `out[c]` becomes `lduAddressingFunctor` applied to `(c, in[c])`, every
other slot and the size of `out` are unchanged; two runs with the same addressing,
accessors and operators whose inputs agree at a cell `c` agree at `out[c]`, whatever
the other inputs and the previous contents of the two output arrays are; and runs
whose inputs agree at every cell return the same output array. -/
theorem matrixOperation_per_cell {T : Type} (inp : Int → T) (out : gpuList T)
    (addr : lduAddressing) (o n : Int → Int → T) (oo no : T → T → T) :
    (matrixOperation inp out addr o n oo no).size = out.size
    ∧ (∀ c : Int, 0 ≤ c → c < addr.size →
        (matrixOperation inp out addr o n oo no).data c
          = lduAddressingFunctor addr.ownerStartAddr.data addr.losortStartAddr.data
              addr.losortAddr.data o n oo no c (inp c))
    ∧ (∀ c : Int, ¬ (0 ≤ c ∧ c < addr.size) →
        (matrixOperation inp out addr o n oo no).data c = out.data c)
    ∧ (∀ (inp2 : Int → T) (out2 : gpuList T) (c : Int), 0 ≤ c → c < addr.size →
        inp c = inp2 c →
        (matrixOperation inp out addr o n oo no).data c
          = (matrixOperation inp2 out2 addr o n oo no).data c)
    ∧ (∀ inp2 : Int → T, (∀ c : Int, 0 ≤ c → c < addr.size → inp c = inp2 c) →
        matrixOperation inp out addr o n oo no = matrixOperation inp2 out addr o n oo no) := by
  refine ⟨rfl, fun c h0 hN => ?_, fun c hc => ?_, fun inp2 out2 c h0 hN hc => ?_,
    fun inp2 hall => ?_⟩
  · simp only [matrixOperation, thrustTransform_counting_apply]
    rw [if_pos ⟨h0, hN⟩]
  · simp only [matrixOperation, thrustTransform_counting_apply]
    rw [if_neg hc]
  · simp only [matrixOperation, thrustTransform_counting_apply]
    rw [if_pos ⟨h0, hN⟩, if_pos ⟨h0, hN⟩, hc]
  · unfold matrixOperation
    simp only [gpuList.mk.injEq, true_and]
    funext c
    simp only [thrustTransform_counting_apply]
    by_cases hc : 0 ≤ c ∧ c < addr.size
    · rw [if_pos hc, if_pos hc, hall c hc.1 hc.2]
    · rw [if_neg hc, if_neg hc]

/-- Witness of C12: cell 2 of `exampleAddr`; two runs whose inputs agree at cell 2 only
and whose output arrays differ beforehand agree at `out[2]`. -/
theorem matrixOperation_per_cell_witness :
    (0 : Int) ≤ 2 ∧ (2 : Int) < exampleAddr.size
    ∧ (fun c : Int => if c = 2 then (1 : ℚ) else 5) 2
        = (fun c : Int => if c = 2 then (1 : ℚ) else 9) 2
    ∧ (matrixOperation (fun c : Int => if c = 2 then (1 : ℚ) else 5) ⟨4, fun _ => 0⟩
          exampleAddr exampleOnes exampleOnes sumOp sumOp).data 2
        = (matrixOperation (fun c : Int => if c = 2 then (1 : ℚ) else 9) ⟨4, fun _ => 7⟩
          exampleAddr exampleOnes exampleOnes sumOp sumOp).data 2 :=
  ⟨by decide, by decide, by norm_num,
    (matrixOperation_per_cell (fun c : Int => if c = 2 then (1 : ℚ) else 5) ⟨4, fun _ => 0⟩
      exampleAddr exampleOnes exampleOnes sumOp sumOp).2.2.2.1
      (fun c : Int => if c = 2 then (1 : ℚ) else 9) ⟨4, fun _ => 7⟩ 2 (by decide) (by decide)
      (by norm_num)⟩

/-! ## C15: boundary-interface accessor -/

/-- C15: over exact arithmetic (any ring) `matrixInterfaceFunctor(coeffs, val)` returns
the negated product `-(coeffs[id] * val[id])` whatever its first argument is; and the
patch task of group `g` with this accessor and the sum operator returns its input
minus the sum of `coeffs[f] * val[f]` over the faces `f` of the group, so that, the
entries of `patchSortCells` being pairwise distinct, `matrixPatchOperation` subtracts
that sum from the slot of the owning cell `patchSortCells[g]`. -/
theorem matrixInterfaceFunctor_eq {R : Type} [Ring R] (coeffs val : Int → R)
    (patchI : Int) (out : gpuList R) (addr : lduAddressing) :
    (∀ cell cell2 id : Int,
      matrixInterfaceFunctor coeffs val cell id = -(coeffs id * val id)
      ∧ matrixInterfaceFunctor coeffs val cell id = matrixInterfaceFunctor coeffs val cell2 id)
    ∧ (∀ (g : Int) (s : R),
        lduAddressingPatchFunctor (addr.patchSortStartAddr patchI).data
            (addr.patchSortAddr patchI).data (addr.patchSortCells patchI).data
            (matrixInterfaceFunctor coeffs val) sumOp g s
          = s - ∑ j in Finset.Ico ((addr.patchSortStartAddr patchI).data g)
                  ((addr.patchSortStartAddr patchI).data (g + 1)),
                coeffs ((addr.patchSortAddr patchI).data j)
                  * val ((addr.patchSortAddr patchI).data j))
    ∧ ((∀ g g2 : Int, 0 ≤ g → g < (addr.patchSortCells patchI).size →
          0 ≤ g2 → g2 < (addr.patchSortCells patchI).size →
          (addr.patchSortCells patchI).data g = (addr.patchSortCells patchI).data g2 → g = g2) →
        ∀ g : Int, 0 ≤ g → g < (addr.patchSortCells patchI).size →
          (matrixPatchOperationSum patchI out addr (matrixInterfaceFunctor coeffs val)).data
              ((addr.patchSortCells patchI).data g)
            = out.data ((addr.patchSortCells patchI).data g)
              - ∑ j in Finset.Ico ((addr.patchSortStartAddr patchI).data g)
                    ((addr.patchSortStartAddr patchI).data (g + 1)),
                  coeffs ((addr.patchSortAddr patchI).data j)
                    * val ((addr.patchSortAddr patchI).data j)) := by
  have hf : ∀ (g : Int) (s : R),
      lduAddressingPatchFunctor (addr.patchSortStartAddr patchI).data
          (addr.patchSortAddr patchI).data (addr.patchSortCells patchI).data
          (matrixInterfaceFunctor coeffs val) sumOp g s
        = s - ∑ j in Finset.Ico ((addr.patchSortStartAddr patchI).data g)
                ((addr.patchSortStartAddr patchI).data (g + 1)),
              coeffs ((addr.patchSortAddr patchI).data j)
                * val ((addr.patchSortAddr patchI).data j) := by
    intro g s
    rw [lduAddressingPatchFunctor_sum]
    simp only [matrixInterfaceFunctor, neg_mul, Finset.sum_neg_distrib]
    rw [sub_eq_add_neg]
  refine ⟨fun cell cell2 id => ⟨?_, rfl⟩, hf, fun hdistinct g hg0 hgn => ?_⟩
  · unfold matrixInterfaceFunctor
    rw [neg_mul]
  · unfold matrixPatchOperationSum matrixPatchOperation
    simp only
    rw [forLabel_permuted_hit _ _ _ _ hdistinct g hg0 hgn, hf]

/-- Witness of C15: group 1 of the example patch (cell 2, boundary faces 0 and 2). -/
theorem matrixInterfaceFunctor_eq_witness :
    (matrixPatchOperationSum 0 ⟨3, fun _ => (100 : ℚ)⟩ examplePatchAddr
        (matrixInterfaceFunctor exampleLower examplePsi)).data
          ((examplePatchAddr.patchSortCells 0).data 1)
      = (100 : ℚ)
          - ∑ j in Finset.Ico ((examplePatchAddr.patchSortStartAddr 0).data 1)
                ((examplePatchAddr.patchSortStartAddr 0).data (1 + 1)),
              exampleLower ((examplePatchAddr.patchSortAddr 0).data j)
                * examplePsi ((examplePatchAddr.patchSortAddr 0).data j) :=
  (matrixInterfaceFunctor_eq exampleLower examplePsi 0 ⟨3, fun _ => (100 : ℚ)⟩
    examplePatchAddr).2.2 examplePatchAddr_hdistinct 1 (by decide) (by decide)

/-! ## C13: every face is gathered once per side -/

/-- C13: for `N = addr.size() ≥ 0` cells and `M` faces, non-decreasing range tables
`ownStart`, `losortStart` with first entry `0` and entry `M` at `N`, and `losort` a
permutation of `[0, M)`: (1) every face lies in the owner range of exactly one cell and
(2) is listed by `losort` in the neighbour range of exactly one cell; (3) for `oc`,
`nc` giving these cells, the generic reduction with sum operators satisfies, over
exact arithmetic, `∑ c, out[c] = ∑ c, in[c] + ∑ f in [0, M), oFun(oc f, f)
+ ∑ f in [0, M), nFun(nc f, f)`; (4) with `in = 0` and `oFun = nFun = 1` the total is
`2 * M`. -/
theorem matrixOperation_gathers_each_face_once {R : Type} [Ring R] (out : gpuList R)
    (addr : lduAddressing) (M : Int) (hN : 0 ≤ addr.size)
    (hmonoO : ∀ c : Int, 0 ≤ c → c < addr.size →
      addr.ownerStartAddr.data c ≤ addr.ownerStartAddr.data (c + 1))
    (hO0 : addr.ownerStartAddr.data 0 = 0) (hOM : addr.ownerStartAddr.data addr.size = M)
    (hmonoL : ∀ c : Int, 0 ≤ c → c < addr.size →
      addr.losortStartAddr.data c ≤ addr.losortStartAddr.data (c + 1))
    (hL0 : addr.losortStartAddr.data 0 = 0) (hLM : addr.losortStartAddr.data addr.size = M)
    (hmaps : ∀ j : Int, 0 ≤ j → j < M → 0 ≤ addr.losortAddr.data j ∧ addr.losortAddr.data j < M)
    (hinj : ∀ j j2 : Int, 0 ≤ j → j < M → 0 ≤ j2 → j2 < M →
      addr.losortAddr.data j = addr.losortAddr.data j2 → j = j2) :
    (∀ f : Int, 0 ≤ f → f < M →
      ∃! c : Int, 0 ≤ c ∧ c < addr.size
        ∧ addr.ownerStartAddr.data c ≤ f ∧ f < addr.ownerStartAddr.data (c + 1))
    ∧ (∀ f : Int, 0 ≤ f → f < M →
      ∃! c : Int, 0 ≤ c ∧ c < addr.size
        ∧ ∃ j : Int, (addr.losortStartAddr.data c ≤ j ∧ j < addr.losortStartAddr.data (c + 1))
            ∧ addr.losortAddr.data j = f)
    ∧ (∀ (inp : Int → R) (o n : Int → Int → R) (oc nc : Int → Int),
        (∀ f : Int, 0 ≤ f → f < M → 0 ≤ oc f ∧ oc f < addr.size
          ∧ addr.ownerStartAddr.data (oc f) ≤ f ∧ f < addr.ownerStartAddr.data (oc f + 1)) →
        (∀ f : Int, 0 ≤ f → f < M → 0 ≤ nc f ∧ nc f < addr.size
          ∧ ∃ j : Int, (addr.losortStartAddr.data (nc f) ≤ j
              ∧ j < addr.losortStartAddr.data (nc f + 1)) ∧ addr.losortAddr.data j = f) →
        ∑ c in Finset.Ico 0 addr.size, (matrixOperationSum inp out addr o n).data c
          = ∑ c in Finset.Ico 0 addr.size, inp c + ∑ f in Finset.Ico 0 M, o (oc f) f
            + ∑ f in Finset.Ico 0 M, n (nc f) f)
    ∧ ∑ c in Finset.Ico 0 addr.size,
        (matrixOperationSum (fun _ => (0 : R)) out addr (fun _ _ => 1) (fun _ _ => 1)).data c
        = 2 * (M : R) := by
  have hbO : ∀ c f : Int, 0 ≤ c → c < addr.size →
      addr.ownerStartAddr.data c ≤ f ∧ f < addr.ownerStartAddr.data (c + 1) → 0 ≤ f ∧ f < M := by
    intro c f h0 hc h
    have := range_cell_bounds _ _ hmonoO c f h0 hc h
    rwa [hO0, hOM] at this
  have hbL : ∀ c j : Int, 0 ≤ c → c < addr.size →
      addr.losortStartAddr.data c ≤ j ∧ j < addr.losortStartAddr.data (c + 1) → 0 ≤ j ∧ j < M := by
    intro c j h0 hc h
    have := range_cell_bounds _ _ hmonoL c j h0 hc h
    rwa [hL0, hLM] at this
  refine ⟨fun f hf0 hfM => ?_, fun f hf0 hfM => ?_, fun inp o n oc nc hoc hnc => ?_, ?_⟩
  · obtain ⟨c, h0, hc, h1, h2⟩ := range_cell_exists_int addr.ownerStartAddr.data f addr.size hN
      hmonoO (by rw [hO0]; exact hf0) (by rw [hOM]; exact hfM)
    exact ⟨c, ⟨h0, hc, h1, h2⟩, fun c2 h => range_cell_unique _ _ hmonoO c2 c f h.1 h.2.1 h0 hc
      h.2.2 ⟨h1, h2⟩⟩
  · obtain ⟨j, hj0, hjM, hjf⟩ := losort_surj M addr.losortAddr.data hmaps hinj f hf0 hfM
    obtain ⟨c, h0, hc, h1, h2⟩ := range_cell_exists_int addr.losortStartAddr.data j addr.size hN
      hmonoL (by rw [hL0]; exact hj0) (by rw [hLM]; exact hjM)
    refine ⟨c, ⟨h0, hc, j, ⟨h1, h2⟩, hjf⟩, ?_⟩
    rintro c2 ⟨h20, h2c, j2, hj2, hj2f⟩
    have hb := hbL c2 j2 h20 h2c hj2
    have hjj : j2 = j := hinj j2 j hb.1 hb.2 hj0 hjM (hj2f.trans hjf.symm)
    rw [hjj] at hj2
    exact range_cell_unique _ _ hmonoL c2 c j h20 h2c h0 hc hj2 ⟨h1, h2⟩
  · rw [matrixOperationSum_total,
      sum_ranges addr.ownerStartAddr.data (fun c f => o c f) (fun f => o (oc f) f) addr.size hN
        hmonoO ?_,
      sum_ranges addr.losortStartAddr.data (fun c j => n c (addr.losortAddr.data j))
        (fun j => n (nc (addr.losortAddr.data j)) (addr.losortAddr.data j)) addr.size hN
        hmonoL ?_,
      hO0, hOM, hL0, hLM]
    · congr 1
      refine Finset.sum_nbij (fun j => addr.losortAddr.data j) ?_ ?_ ?_ (fun _ _ => rfl)
      · intro j hj
        have hj2 := Finset.mem_Ico.mp hj
        exact Finset.mem_Ico.mpr (hmaps j hj2.1 hj2.2)
      · intro j hj j2 hj2 heq
        have a := Finset.mem_Ico.mp (Finset.mem_coe.mp hj)
        have b := Finset.mem_Ico.mp (Finset.mem_coe.mp hj2)
        exact hinj j j2 a.1 a.2 b.1 b.2 heq
      · intro f hf
        have hf2 := Finset.mem_Ico.mp (Finset.mem_coe.mp hf)
        obtain ⟨j, hj0, hjM, hjf⟩ := losort_surj M addr.losortAddr.data hmaps hinj f hf2.1 hf2.2
        exact ⟨j, Finset.mem_coe.mpr (Finset.mem_Ico.mpr ⟨hj0, hjM⟩), hjf⟩
    · intro c h0 hc j hlo hhi
      have hb := hbL c j h0 hc ⟨hlo, hhi⟩
      have hm := hmaps j hb.1 hb.2
      obtain ⟨hn0, hnN, j2, hj2, hj2f⟩ := hnc (addr.losortAddr.data j) hm.1 hm.2
      have hb2 := hbL _ j2 hn0 hnN hj2
      have hjj : j2 = j := hinj j2 j hb2.1 hb2.2 hb.1 hb.2 hj2f
      rw [hjj] at hj2
      show n c (addr.losortAddr.data j) = n (nc (addr.losortAddr.data j)) (addr.losortAddr.data j)
      rw [range_cell_unique _ _ hmonoL c (nc (addr.losortAddr.data j)) j h0 hc hn0 hnN
        ⟨hlo, hhi⟩ hj2]
    · intro c h0 hc f hlo hhi
      have hb := hbO c f h0 hc ⟨hlo, hhi⟩
      obtain ⟨ho0, hoN, ho1, ho2⟩ := hoc f hb.1 hb.2
      show o c f = o (oc f) f
      rw [range_cell_unique _ _ hmonoO c (oc f) f h0 hc ho0 hoN ⟨hlo, hhi⟩ ⟨ho1, ho2⟩]
  · have hM : 0 ≤ M := by
      have := table_mono _ _ hmonoO 0 addr.size (le_refl 0) hN (le_refl _)
      rwa [hO0, hOM] at this
    rw [matrixOperationSum_total,
      sum_ranges addr.ownerStartAddr.data (fun _ _ => (1 : R)) (fun _ => 1) addr.size hN
        hmonoO (fun _ _ _ _ _ _ => rfl),
      sum_ranges addr.losortStartAddr.data (fun _ _ => (1 : R)) (fun _ => 1) addr.size hN
        hmonoL (fun _ _ _ _ _ _ => rfl),
      hO0, hOM, hL0, hLM]
    simp only [Finset.sum_const, Int.card_Ico, sub_zero, smul_zero, zero_add, nsmul_eq_mul,
      mul_one]
    have e : ((M.toNat : Nat) : R) = (M : R) := by
      rw [← Int.cast_natCast, Int.toNat_of_nonneg hM]
    rw [e, two_mul]

theorem exampleAddr_monoO (c : Int) (h0 : 0 ≤ c) (hc : c < exampleAddr.size) :
    exampleAddr.ownerStartAddr.data c ≤ exampleAddr.ownerStartAddr.data (c + 1) := by
  have hc4 : c < 4 := hc
  simp only [exampleAddr]
  interval_cases c <;> decide

theorem exampleAddr_monoL (c : Int) (h0 : 0 ≤ c) (hc : c < exampleAddr.size) :
    exampleAddr.losortStartAddr.data c ≤ exampleAddr.losortStartAddr.data (c + 1) := by
  have hc4 : c < 4 := hc
  simp only [exampleAddr]
  interval_cases c <;> decide

theorem exampleAddr_ownerCell (f : Int) (h0 : 0 ≤ f) (h2 : f < 2) :
    0 ≤ exampleOwner f ∧ exampleOwner f < exampleAddr.size
      ∧ exampleAddr.ownerStartAddr.data (exampleOwner f) ≤ f
      ∧ f < exampleAddr.ownerStartAddr.data (exampleOwner f + 1) := by
  interval_cases f <;> decide

theorem exampleAddr_neighbourCell (f : Int) (h0 : 0 ≤ f) (h2 : f < 2) :
    0 ≤ exampleNeighbour f ∧ exampleNeighbour f < exampleAddr.size
      ∧ ∃ j : Int, (exampleAddr.losortStartAddr.data (exampleNeighbour f) ≤ j
          ∧ j < exampleAddr.losortStartAddr.data (exampleNeighbour f + 1))
        ∧ exampleAddr.losortAddr.data j = f := by
  interval_cases f
  · exact ⟨by decide, by decide, 1, by decide, by decide⟩
  · exact ⟨by decide, by decide, 0, by decide, by decide⟩

/-- Witness of C13: the example mesh (four cells, two faces); with the matrix-vector
accessors the cell values add up to the inputs plus one owner-side and one
neighbour-side contribution per face, and with unit contributions the total is `2 * 2`. -/
theorem matrixOperation_gathers_each_face_once_witness :
    ∑ c in Finset.Ico 0 exampleAddr.size,
        (matrixOperationSum (fun c => exampleDiag c * examplePsi c) ⟨4, fun _ => 0⟩ exampleAddr
          (matrixCoeffsMultiplyFunctor examplePsi exampleUpper exampleNeighbour (fun x => x))
          (matrixCoeffsMultiplyFunctor examplePsi exampleLower exampleOwner (fun x => x))).data c
      = ∑ c in Finset.Ico 0 exampleAddr.size, exampleDiag c * examplePsi c
        + ∑ f in Finset.Ico 0 2,
            matrixCoeffsMultiplyFunctor examplePsi exampleUpper exampleNeighbour (fun x => x)
              (exampleOwner f) f
        + ∑ f in Finset.Ico 0 2,
            matrixCoeffsMultiplyFunctor examplePsi exampleLower exampleOwner (fun x => x)
              (exampleNeighbour f) f
    ∧ ∑ c in Finset.Ico 0 exampleAddr.size,
        (matrixOperationSum (fun _ => (0 : ℚ)) ⟨4, fun _ => 0⟩ exampleAddr (fun _ _ => 1)
          (fun _ _ => 1)).data c
      = 2 * ((2 : Int) : ℚ) :=
  ⟨(matrixOperation_gathers_each_face_once (⟨4, fun _ => 0⟩ : gpuList ℚ) exampleAddr 2
      (by decide) exampleAddr_monoO (by decide) (by decide) exampleAddr_monoL (by decide)
      (by decide) exampleAddr_hmaps exampleAddr_hinj).2.2.1
      (fun c => exampleDiag c * examplePsi c)
      (matrixCoeffsMultiplyFunctor examplePsi exampleUpper exampleNeighbour (fun x => x))
      (matrixCoeffsMultiplyFunctor examplePsi exampleLower exampleOwner (fun x => x))
      exampleOwner exampleNeighbour exampleAddr_ownerCell exampleAddr_neighbourCell,
    (matrixOperation_gathers_each_face_once (⟨4, fun _ => 0⟩ : gpuList ℚ) exampleAddr 2
      (by decide) exampleAddr_monoO (by decide) (by decide) exampleAddr_monoL (by decide)
      (by decide) exampleAddr_hmaps exampleAddr_hinj).2.2.2⟩

/-! ## C17: index safety -/

/-- C17, as stated, fails: with `N = 1`, `M = 1`, `ownStart = [-1, 1]`,
`neiStart = [0, 0]` and an empty `losort` every stated condition holds (tables of
`N + 1` entries, non-decreasing, `ownStart[N] ≤ M`, `neiStart[N] ≤ length(losort)`,
entries of `losort` in `[0, M)`), yet for cell 0 the owner loop hands the face index
`-1` to `oFun`: the checked functor fails, and the unchecked one, run with accessors
that record their face argument, returns `[-1, 0]`. Likewise with
`ownStart = [0, 0]` and `neiStart = [-1, 0]` every stated condition holds and the
neighbour loop reads `losort[-1]`. -/
theorem lduAddressingFunctorChecked_counterexample :
    ((([-1, 1] : List Int).length : Int) = 1 + 1 ∧ ((([0, 0] : List Int).length : Int) = 1 + 1)
      ∧ ([-1, 1] : List Int).Pairwise (fun a b => a ≤ b)
      ∧ ([0, 0] : List Int).Pairwise (fun a b => a ≤ b)
      ∧ tablePtr [-1, 1] 1 ≤ 1
      ∧ tablePtr [0, 0] 1 ≤ (([] : List Int).length : Int)
      ∧ (∀ x ∈ ([] : List Int), 0 ≤ x ∧ x < 1)
      ∧ (0 : Int) ≤ 0 ∧ (0 : Int) < 1)
    ∧ lduAddressingFunctorChecked (T := List Int) 1 [-1, 1] [0, 0] []
        (fun _ f => [f]) (fun _ f => [f]) (fun a b => a ++ b) (fun a b => a ++ b) 0 [] = none
    ∧ lduAddressingFunctor (T := List Int) (tablePtr [-1, 1]) (tablePtr [0, 0]) (tablePtr [])
        (fun _ f => [f]) (fun _ f => [f]) (fun a b => a ++ b) (fun a b => a ++ b) 0 []
        = [-1, 0]
    ∧ ((([0, 0] : List Int).length : Int) = 1 + 1 ∧ ((([-1, 0] : List Int).length : Int) = 1 + 1)
      ∧ ([0, 0] : List Int).Pairwise (fun a b => a ≤ b)
      ∧ ([-1, 0] : List Int).Pairwise (fun a b => a ≤ b)
      ∧ tablePtr [0, 0] 1 ≤ 1
      ∧ tablePtr [-1, 0] 1 ≤ (([] : List Int).length : Int)
      ∧ (∀ x ∈ ([] : List Int), 0 ≤ x ∧ x < 1))
    ∧ lduAddressingFunctorChecked (T := List Int) 1 [0, 0] [-1, 0] []
        (fun _ f => [f]) (fun _ f => [f]) (fun a b => a ++ b) (fun a b => a ++ b) 0 [] = none := by
  decide

/-- C17, amended: if `ownStart` and `neiStart` have `N + 1` entries, are non-decreasing
and start at a non-negative entry (`0 ≤ ownStart[0]`, `0 ≤ neiStart[0]`),
`ownStart[N] ≤ M`, `neiStart[N] ≤ length(losort)` and every entry of `losort` lies in
`[0, M)`, then for every cell `id` in `[0, N)` the bounds-checked functor does not
fail: every table read is in bounds, every face index handed to `oFun` or `nFun` lies
in `[0, M)`, and the value is the one the unchecked functor computes through the raw
pointers. -/
theorem lduAddressingFunctorChecked_eq_some {T : Type} (N M : Int)
    (ownStart neiStart losort : List Int) (oFun nFun : Int → Int → T) (oOp nOp : T → T → T)
    (id : Int) (d : T)
    (hlenO : (ownStart.length : Int) = N + 1) (hlenN : (neiStart.length : Int) = N + 1)
    (hsortO : ownStart.Pairwise (fun a b => a ≤ b))
    (hsortN : neiStart.Pairwise (fun a b => a ≤ b))
    (hO0 : 0 ≤ tablePtr ownStart 0) (hN0 : 0 ≤ tablePtr neiStart 0)
    (hOM : tablePtr ownStart N ≤ M) (hNL : tablePtr neiStart N ≤ (losort.length : Int))
    (hlos : ∀ x ∈ losort, 0 ≤ x ∧ x < M)
    (hid0 : 0 ≤ id) (hidN : id < N) :
    lduAddressingFunctorChecked M ownStart neiStart losort oFun nFun oOp nOp id d
      = some (lduAddressingFunctor (tablePtr ownStart) (tablePtr neiStart) (tablePtr losort)
          oFun nFun oOp nOp id d) := by
  have a1 := tablePtr_mono ownStart hsortO 0 id (le_refl 0) hid0 (by omega)
  have a2 := tablePtr_mono ownStart hsortO (id + 1) N (by omega) (by omega) (by omega)
  have b1 := tablePtr_mono neiStart hsortN 0 id (le_refl 0) hid0 (by omega)
  have b2 := tablePtr_mono neiStart hsortN (id + 1) N (by omega) (by omega) (by omega)
  unfold lduAddressingFunctorChecked lduAddressingFunctor
  rw [readAt_eq_some ownStart id hid0 (by omega),
    readAt_eq_some ownStart (id + 1) (by omega) (by omega),
    readAt_eq_some neiStart id hid0 (by omega),
    readAt_eq_some neiStart (id + 1) (by omega) (by omega)]
  simp only [Option.some_bind]
  rw [forLabelChecked_eq_some 0 _ _
      (fun i out => oOp out (oFun id (tablePtr ownStart id + i))) d ?_,
    Option.some_bind,
    forLabelChecked_eq_some 0 _ _
      (fun i out => nOp out (nFun id (tablePtr losort (tablePtr neiStart id + i)))) _ ?_]
  · intro k hk0 hk t
    have hpos : tablePtr neiStart id + k < (losort.length : Int) := by omega
    rw [readAt_eq_some losort _ (by omega) hpos, Option.some_bind,
      if_pos (hlos _ (tablePtr_mem losort _ (by omega) hpos))]
  · intro k hk0 hk t
    simp only
    rw [if_pos ⟨by omega, by omega⟩]

/-- Witness of C17 amended: cell 2 of the example mesh, its tables held as lists. -/
theorem lduAddressingFunctorChecked_eq_some_witness :
    lduAddressingFunctorChecked 2 [0, 1, 2, 2, 2] [0, 0, 0, 1, 2] [1, 0]
        exampleFn exampleFn sumOp sumOp 2 (0 : ℚ)
      = some (lduAddressingFunctor (tablePtr [0, 1, 2, 2, 2]) (tablePtr [0, 0, 0, 1, 2])
          (tablePtr [1, 0]) exampleFn exampleFn sumOp sumOp 2 (0 : ℚ)) :=
  lduAddressingFunctorChecked_eq_some 4 2 [0, 1, 2, 2, 2] [0, 0, 0, 1, 2] [1, 0]
    exampleFn exampleFn sumOp sumOp 2 (0 : ℚ) (by decide) (by decide) (by decide) (by decide)
    (by decide) (by decide) (by decide) (by decide) (by decide) (by decide) (by decide)

/-! ## C18: conservation under symmetric agglomeration -/

/-- C18: for `nC ≥ 0` coarse faces, a non-decreasing coarse-face range table with first
entry `0` and entry `K` at `nC`, and a sort array injective on `[0, K)`, over exact
arithmetic (any commutative additive group) the increments produced by
`GAMGSolverAgglomerateSymFunctor` over all coarse faces add up to the sum of
`ff[sort[i]]` over `i` in `[0, K)`, which is the sum of `ff` over the set of fine faces
listed in the sort array: no fine coefficient is lost or counted twice. -/
theorem GAMGSolverAgglomerateSymFunctor_conservation {R : Type} [AddCommGroup R]
    (ff : Int → R) (sort rangeTable : Int → Int) (s : Int → R) (nC K : Int) (hnC : 0 ≤ nC)
    (hmono : ∀ c : Int, 0 ≤ c → c < nC → rangeTable c ≤ rangeTable (c + 1))
    (h0 : rangeTable 0 = 0) (hK : rangeTable nC = K)
    (hinj : ∀ i j : Int, 0 ≤ i → i < K → 0 ≤ j → j < K → sort i = sort j → i = j) :
    ∑ c in Finset.Ico 0 nC,
        (GAMGSolverAgglomerateSymFunctor ff sort (s c) (rangeTable c, rangeTable (c + 1)) - s c)
      = ∑ i in Finset.Ico 0 K, ff (sort i)
    ∧ ∑ c in Finset.Ico 0 nC,
        (GAMGSolverAgglomerateSymFunctor ff sort (s c) (rangeTable c, rangeTable (c + 1)) - s c)
      = ∑ k in (Finset.Ico 0 K).image sort, ff k := by
  have h1 : ∑ c in Finset.Ico 0 nC,
        (GAMGSolverAgglomerateSymFunctor ff sort (s c) (rangeTable c, rangeTable (c + 1)) - s c)
      = ∑ i in Finset.Ico 0 K, ff (sort i) := by
    have hinc : ∀ c : Int,
        GAMGSolverAgglomerateSymFunctor ff sort (s c) (rangeTable c, rangeTable (c + 1)) - s c
          = ∑ i in Finset.Ico (rangeTable c) (rangeTable (c + 1)), ff (sort i) := by
      intro c
      unfold GAMGSolverAgglomerateSymFunctor
      simp only
      rw [forLabel_add (fun i => ff (sort i))]
      abel
    simp only [hinc]
    rw [sum_ranges rangeTable (fun _ i => ff (sort i)) (fun i => ff (sort i)) nC hnC hmono
      (fun _ _ _ _ _ _ => rfl), h0, hK]
  refine ⟨h1, ?_⟩
  rw [h1, Finset.sum_image]
  intro i hi j hj h
  have a := Finset.mem_Ico.mp hi
  have b := Finset.mem_Ico.mp hj
  exact hinj i j a.1 a.2 b.1 b.2 h

theorem exampleCoarseStart_mono (c : Int) (h0 : 0 ≤ c) (h2 : c < 2) :
    exampleCoarseStart c ≤ exampleCoarseStart (c + 1) := by
  unfold exampleCoarseStart
  interval_cases c <;> decide

theorem exampleSort_inj (i j : Int) (hi0 : 0 ≤ i) (hi : i < 3) (hj0 : 0 ≤ j) (hj : j < 3)
    (h : exampleSort i = exampleSort j) : i = j := by
  unfold exampleSort at h
  split_ifs at h <;> omega

/-- Witness of C18: two coarse faces with ranges `[0, 1)` and `[1, 3)` over the fine
faces `[5, 3, 4]`. -/
theorem GAMGSolverAgglomerateSymFunctor_conservation_witness :
    ∑ c in Finset.Ico (0 : Int) 2,
        (GAMGSolverAgglomerateSymFunctor examplePsi exampleSort ((fun _ => (10 : ℚ)) c)
          (exampleCoarseStart c, exampleCoarseStart (c + 1)) - (fun _ => (10 : ℚ)) c)
      = ∑ i in Finset.Ico (0 : Int) 3, examplePsi (exampleSort i)
    ∧ ∑ c in Finset.Ico (0 : Int) 2,
        (GAMGSolverAgglomerateSymFunctor examplePsi exampleSort ((fun _ => (10 : ℚ)) c)
          (exampleCoarseStart c, exampleCoarseStart (c + 1)) - (fun _ => (10 : ℚ)) c)
      = ∑ k in (Finset.Ico (0 : Int) 3).image exampleSort, examplePsi k :=
  GAMGSolverAgglomerateSymFunctor_conservation examplePsi exampleSort exampleCoarseStart
    (fun _ => (10 : ℚ)) 2 3 (by decide) exampleCoarseStart_mono (by decide) (by decide)
    exampleSort_inj

/-! ## C19: face-order independence -/

/-- C19: if the neighbour operator is associative and commutative, replacing `losort`
by an array that lists the same multiset of face indices over the cell's neighbour
range `[neiStart[id], neiStart[id+1])` leaves the result of the generic functor for
that cell unchanged; in particular for the sum operators over exact arithmetic. -/
theorem lduAddressingFunctor_losort_perm {T : Type}
    (ownStart neiStart losort losort2 : Int → Int)
    (oFun nFun : Int → Int → T) (oOp nOp : T → T → T) (id : Int) (d : T)
    (hassoc : ∀ a b c : T, nOp (nOp a b) c = nOp a (nOp b c))
    (hcomm : ∀ a b : T, nOp a b = nOp b a)
    (hperm : ((labelRange (neiStart id) (neiStart (id + 1))).map losort).Perm
      ((labelRange (neiStart id) (neiStart (id + 1))).map losort2)) :
    lduAddressingFunctor ownStart neiStart losort oFun nFun oOp nOp id d
      = lduAddressingFunctor ownStart neiStart losort2 oFun nFun oOp nOp id d := by
  rw [lduAddressingFunctor_foldl, lduAddressingFunctor_foldl]
  refine List.Perm.foldl_eq' hperm (fun x _ y _ z => ?_) _
  rw [hassoc, hassoc, hcomm (nFun id x)]

/-- Witness of C19: the neighbour range `[0, 2)` of cell 1 read through `losort = [7, 8]`
and through `[8, 7]`, with the sum operators over `ℚ`. -/
theorem lduAddressingFunctor_losort_perm_witness :
    ((labelRange 0 2).map (fun j : Int => if j = 0 then (7 : Int) else 8)).Perm
      ((labelRange 0 2).map (fun j : Int => if j = 0 then (8 : Int) else 7))
    ∧ lduAddressingFunctor (fun _ => 0) (fun i => if i ≤ 1 then 0 else 2)
          (fun j => if j = 0 then 7 else 8) exampleFn exampleFn sumOp sumOp 1 (0 : ℚ)
        = lduAddressingFunctor (fun _ => 0) (fun i => if i ≤ 1 then 0 else 2)
          (fun j => if j = 0 then 8 else 7) exampleFn exampleFn sumOp sumOp 1 (0 : ℚ) :=
  ⟨by decide,
    lduAddressingFunctor_losort_perm (fun _ => 0) (fun i => if i ≤ 1 then 0 else 2)
      (fun j => if j = 0 then 7 else 8) (fun j => if j = 0 then 8 else 7)
      exampleFn exampleFn sumOp sumOp 1 (0 : ℚ)
      (fun a b c => add_assoc a b c) (fun a b => add_comm a b) (by decide)⟩

/-! ## C21, C22, C23: relations between the agglomeration reducers -/

/-- C21: for every range, arrays `uf`, `lf`, `sort` and every assignment of flip flags,
if the asymmetric off-diagonal reducer maps `(uc, lc)` to `(uc2, lc2)` and the
asymmetric diagonal reducer maps `s` to `s2` over the same range, then over exact
arithmetic (any commutative additive group) `(uc2 - uc) + (lc2 - lc) = s2 - s`. -/
theorem GAMGSolverAgglomerateAsymFunctor_total_eq_diag {R : Type} [AddCommGroup R]
    (uf lf : Int → R) (flip : Int → Bool) (sort : Int → Int) (uc lc s : R)
    (start end_ : Int) :
    ((GAMGSolverAgglomerateAsymFunctor uf lf flip sort (uc, lc) (start, end_)).1 - uc)
        + ((GAMGSolverAgglomerateAsymFunctor uf lf flip sort (uc, lc) (start, end_)).2 - lc)
      = GAMGSolverAgglomerateDiagAsymFunctor uf lf sort s (start, end_) - s := by
  rw [GAMGSolverAgglomerateAsymFunctor_value, GAMGSolverAgglomerateDiagAsymFunctor_value]
  simp only [add_sub_cancel_left]
  rw [← Finset.sum_add_distrib]
  refine Finset.sum_congr rfl (fun i _ => ?_)
  by_cases hf : (!flip (sort i)) = true
  · rw [if_pos hf, if_pos hf]
  · rw [if_neg hf, if_neg hf, add_comm]

/-- C22: when `uf[k] = lf[k] = ff[k]` at every fine face `k = sort[i]` of the range,
then for every assignment of flip flags the asymmetric off-diagonal reducer started
from `(s, s)` returns `(r, r)`, `r` being what the symmetric off-diagonal reducer
returns from `s` over the same range and sort array; and the asymmetric diagonal
reducer returns what the symmetric diagonal reducer returns from the same value. -/
theorem GAMGSolverAgglomerateAsymFunctor_aliased {R : Type} [Semiring R]
    (uf lf ff : Int → R) (flip : Int → Bool) (sort : Int → Int) (s d : R) (start end_ : Int)
    (halias : ∀ i : Int, start ≤ i → i < end_ →
      uf (sort i) = ff (sort i) ∧ lf (sort i) = ff (sort i)) :
    GAMGSolverAgglomerateAsymFunctor uf lf flip sort (s, s) (start, end_)
        = (GAMGSolverAgglomerateSymFunctor ff sort s (start, end_),
           GAMGSolverAgglomerateSymFunctor ff sort s (start, end_))
    ∧ GAMGSolverAgglomerateDiagAsymFunctor uf lf sort d (start, end_)
        = GAMGSolverAgglomerateDiagSymFunctor ff sort d (start, end_) := by
  have h1 : ∀ i ∈ Finset.Ico start end_,
      (if (!flip (sort i)) = true then uf (sort i) else lf (sort i)) = ff (sort i) := by
    intro i hi
    have h := halias i (Finset.mem_Ico.mp hi).1 (Finset.mem_Ico.mp hi).2
    split_ifs
    · exact h.1
    · exact h.2
  have h2 : ∀ i ∈ Finset.Ico start end_,
      (if (!flip (sort i)) = true then lf (sort i) else uf (sort i)) = ff (sort i) := by
    intro i hi
    have h := halias i (Finset.mem_Ico.mp hi).1 (Finset.mem_Ico.mp hi).2
    split_ifs
    · exact h.2
    · exact h.1
  have h3 : ∀ i ∈ Finset.Ico start end_, uf (sort i) + lf (sort i) = 2 * ff (sort i) := by
    intro i hi
    have h := halias i (Finset.mem_Ico.mp hi).1 (Finset.mem_Ico.mp hi).2
    rw [h.1, h.2, two_mul]
  rw [GAMGSolverAgglomerateAsymFunctor_value, GAMGSolverAgglomerateSymFunctor_value,
    GAMGSolverAgglomerateDiagAsymFunctor_value, GAMGSolverAgglomerateDiagSymFunctor_value,
    Finset.sum_congr rfl h1, Finset.sum_congr rfl h2, Finset.sum_congr rfl h3]
  exact ⟨rfl, rfl⟩

/-- Witness of C22: two fine faces with aliased coefficients `2` and `3`, the first one
flipped. -/
theorem GAMGSolverAgglomerateAsymFunctor_aliased_witness :
    GAMGSolverAgglomerateAsymFunctor examplePsi examplePsi (fun k => decide (k = 1))
        (fun i => if i = 0 then 1 else 2) ((7 : ℚ), (7 : ℚ)) (0, 2)
        = (GAMGSolverAgglomerateSymFunctor examplePsi (fun i => if i = 0 then 1 else 2) 7 (0, 2),
           GAMGSolverAgglomerateSymFunctor examplePsi (fun i => if i = 0 then 1 else 2) 7 (0, 2))
    ∧ GAMGSolverAgglomerateDiagAsymFunctor examplePsi examplePsi
        (fun i => if i = 0 then 1 else 2) (9 : ℚ) (0, 2)
        = GAMGSolverAgglomerateDiagSymFunctor examplePsi (fun i => if i = 0 then 1 else 2)
            9 (0, 2) :=
  GAMGSolverAgglomerateAsymFunctor_aliased examplePsi examplePsi examplePsi
    (fun k => decide (k = 1)) (fun i => if i = 0 then 1 else 2) 7 9 0 2
    (fun _ _ _ => ⟨rfl, rfl⟩)

/-- C23: running the asymmetric off-diagonal reducer with the fine arrays exchanged
(`lf`, `uf`) and every flip flag negated returns the pair it returns with
(`uf`, `lf`, `flip`); and negating every flip flag alone exchanges the two increments:
over exact arithmetic (any commutative additive group), if `(uc, lc)` maps to
`(uc + a, lc + b)` under `flip`, it maps to `(uc + b, lc + a)` under the negated flags. -/
theorem GAMGSolverAgglomerateAsymFunctor_flip_symmetry {R : Type} [AddCommGroup R]
    (uf lf : Int → R) (flip : Int → Bool) (sort : Int → Int) (uc lc : R) (start end_ : Int) :
    GAMGSolverAgglomerateAsymFunctor lf uf (fun k => !flip k) sort (uc, lc) (start, end_)
        = GAMGSolverAgglomerateAsymFunctor uf lf flip sort (uc, lc) (start, end_)
    ∧ ∀ a b : R,
        GAMGSolverAgglomerateAsymFunctor uf lf flip sort (uc, lc) (start, end_)
          = (uc + a, lc + b) →
        GAMGSolverAgglomerateAsymFunctor uf lf (fun k => !flip k) sort (uc, lc) (start, end_)
          = (uc + b, lc + a) := by
  have hneg : ∀ (x y : R) (i : Int),
      (if (!(fun k => !flip k) (sort i)) = true then x else y)
        = if (!flip (sort i)) = true then y else x := by
    intro x y i
    by_cases h : flip (sort i) = true <;> simp [h]
  refine ⟨?_, fun a b hab => ?_⟩
  · rw [GAMGSolverAgglomerateAsymFunctor_value, GAMGSolverAgglomerateAsymFunctor_value]
    simp only [hneg]
  · rw [GAMGSolverAgglomerateAsymFunctor_value] at hab ⊢
    simp only [hneg]
    have ha := add_left_cancel (congrArg Prod.fst hab)
    have hb := add_left_cancel (congrArg Prod.snd hab)
    rw [ha, hb]

/-- Witness of C23: one flipped fine face (upper `1`, lower `10`) and one non-flipped
(upper `2`, lower `20`): `(0, 0)` maps to `(0 + 12, 0 + 21)`, and to `(0 + 21, 0 + 12)`
under the negated flags. -/
theorem GAMGSolverAgglomerateAsymFunctor_flip_symmetry_witness :
    GAMGSolverAgglomerateAsymFunctor exampleUpper exampleLower (fun k => decide (k = 0))
        (fun i => i) ((0 : ℚ), (0 : ℚ)) (0, 2) = (0 + 12, 0 + 21)
    ∧ GAMGSolverAgglomerateAsymFunctor exampleUpper exampleLower
        (fun k => !(fun k => decide (k = 0)) k) (fun i => i) ((0 : ℚ), (0 : ℚ)) (0, 2)
        = (0 + 21, 0 + 12) :=
  ⟨by norm_num [GAMGSolverAgglomerateAsymFunctor, forLabel, loopFrom, exampleUpper,
      exampleLower],
    (GAMGSolverAgglomerateAsymFunctor_flip_symmetry exampleUpper exampleLower
      (fun k => decide (k = 0)) (fun i => i) (0 : ℚ) (0 : ℚ) 0 2).2 12 21
      (by norm_num [GAMGSolverAgglomerateAsymFunctor, forLabel, loopFrom, exampleUpper,
        exampleLower])⟩

/-! ## C24: empty and inverted ranges -/

/-- C24: for every range with `start ≥ end` each of the four agglomeration reducers
returns its initial coarse value unchanged and, in the read-tracing model (whose value
is the reducer's value on every range), performs no read of the fine, flip or sort
arrays; and `lduAddressingFunctor` returns `d` unchanged for a cell whose owner-range
and neighbour-range sizes are both at most `0`. -/
theorem agglomeration_empty_range_identity {R : Type} [Semiring R]
    (uf lf ff : Int → R) (flip : Int → Bool) (sort : Int → Int) (s uc lc : R)
    (start end_ : Int) (hrange : end_ ≤ start) :
    (GAMGSolverAgglomerateSymFunctor ff sort s (start, end_) = s
      ∧ GAMGSolverAgglomerateDiagSymFunctor ff sort s (start, end_) = s
      ∧ GAMGSolverAgglomerateAsymFunctor uf lf flip sort (uc, lc) (start, end_) = (uc, lc)
      ∧ GAMGSolverAgglomerateDiagAsymFunctor uf lf sort s (start, end_) = s)
    ∧ (GAMGSolverAgglomerateSymFunctorTraced ff sort s (start, end_) = (s, [])
      ∧ GAMGSolverAgglomerateDiagSymFunctorTraced ff sort s (start, end_) = (s, [])
      ∧ GAMGSolverAgglomerateAsymFunctorTraced uf lf flip sort (uc, lc) (start, end_)
          = ((uc, lc), [])
      ∧ GAMGSolverAgglomerateDiagAsymFunctorTraced uf lf sort s (start, end_) = (s, []))
    ∧ (∀ t : Int × Int,
        (GAMGSolverAgglomerateSymFunctorTraced ff sort s t).1
            = GAMGSolverAgglomerateSymFunctor ff sort s t
        ∧ (GAMGSolverAgglomerateDiagSymFunctorTraced ff sort s t).1
            = GAMGSolverAgglomerateDiagSymFunctor ff sort s t
        ∧ (GAMGSolverAgglomerateAsymFunctorTraced uf lf flip sort (uc, lc) t).1
            = GAMGSolverAgglomerateAsymFunctor uf lf flip sort (uc, lc) t
        ∧ (GAMGSolverAgglomerateDiagAsymFunctorTraced uf lf sort s t).1
            = GAMGSolverAgglomerateDiagAsymFunctor uf lf sort s t)
    ∧ (∀ (T : Type) (ownStart neiStart losort : Int → Int) (oFun nFun : Int → Int → T)
        (oOp nOp : T → T → T) (id : Int) (d : T),
        ownStart (id + 1) - ownStart id ≤ 0 → neiStart (id + 1) - neiStart id ≤ 0 →
        lduAddressingFunctor ownStart neiStart losort oFun nFun oOp nOp id d = d) := by
  refine ⟨⟨?_, ?_, ?_, ?_⟩, ⟨?_, ?_, ?_, ?_⟩, fun t => ⟨?_, ?_, ?_, ?_⟩, ?_⟩
  · unfold GAMGSolverAgglomerateSymFunctor
    exact forLabel_of_le start end_ hrange _ s
  · unfold GAMGSolverAgglomerateDiagSymFunctor
    exact forLabel_of_le start end_ hrange _ s
  · unfold GAMGSolverAgglomerateAsymFunctor
    exact forLabel_of_le start end_ hrange _ (uc, lc)
  · unfold GAMGSolverAgglomerateDiagAsymFunctor
    exact forLabel_of_le start end_ hrange _ s
  · unfold GAMGSolverAgglomerateSymFunctorTraced
    exact forLabel_of_le start end_ hrange _ (s, [])
  · unfold GAMGSolverAgglomerateDiagSymFunctorTraced
    exact forLabel_of_le start end_ hrange _ (s, [])
  · unfold GAMGSolverAgglomerateAsymFunctorTraced
    exact forLabel_of_le start end_ hrange _ ((uc, lc), [])
  · unfold GAMGSolverAgglomerateDiagAsymFunctorTraced
    exact forLabel_of_le start end_ hrange _ (s, [])
  · exact GAMGSolverAgglomerateSymFunctorTraced_fst ff sort s t
  · exact GAMGSolverAgglomerateDiagSymFunctorTraced_fst ff sort s t
  · exact GAMGSolverAgglomerateAsymFunctorTraced_fst uf lf flip sort (uc, lc) t
  · exact GAMGSolverAgglomerateDiagAsymFunctorTraced_fst uf lf sort s t
  · intro T ownStart neiStart losort oFun nFun oOp nOp id d ho hn
    unfold lduAddressingFunctor
    simp only
    rw [forLabel_of_le 0 _ ho, forLabel_of_le 0 _ hn]

/-- Witness of C24: the inverted range `(3, 1)`; and, for comparison, the reads the
symmetric reducer performs over the range `(0, 2)`. -/
theorem agglomeration_empty_range_identity_witness :
    (3 : Int) ≥ 1
    ∧ GAMGSolverAgglomerateSymFunctor examplePsi exampleSort (7 : ℚ) (3, 1) = 7
    ∧ GAMGSolverAgglomerateAsymFunctorTraced exampleUpper exampleLower
        (fun k => decide (k = 0)) exampleSort ((7 : ℚ), (8 : ℚ)) (3, 1) = ((7, 8), [])
    ∧ (GAMGSolverAgglomerateSymFunctorTraced examplePsi exampleSort (7 : ℚ) (0, 2)).2
        = [ArrayRead.sort 0, ArrayRead.ff 5, ArrayRead.sort 1, ArrayRead.ff 3] :=
  ⟨by decide,
    (agglomeration_empty_range_identity exampleUpper exampleLower examplePsi
      (fun k => decide (k = 0)) exampleSort (7 : ℚ) 7 8 3 1 (by decide)).1.1,
    (agglomeration_empty_range_identity exampleUpper exampleLower examplePsi
      (fun k => decide (k = 0)) exampleSort (7 : ℚ) 7 8 3 1 (by decide)).2.1.2.2.1,
    by simp [GAMGSolverAgglomerateSymFunctorTraced, forLabel, loopFrom, exampleSort]⟩

/-! ## C25, C26: the face-map encoding -/

/-- C25: for a signed two's-complement `label` of `w ≥ 1` bits and every label `n`,
the minimum and the maximum included, the exact value `-1 - n` is representable (no
overflow), so `faceToDiagFunctor` returns it, and
`faceToDiagFunctor(faceToDiagFunctor(n)) = n`; the minimum and the maximum are
exchanged. -/
theorem faceToDiagFunctor_involution (w : Nat) (hw : 1 ≤ w) (n : Int)
    (hlo : labelMin w ≤ n) (hhi : n ≤ labelMax w) :
    (labelMin w ≤ -1 - n ∧ -1 - n ≤ labelMax w)
    ∧ faceToDiagFunctor w n = -1 - n
    ∧ faceToDiagFunctor w (faceToDiagFunctor w n) = n
    ∧ faceToDiagFunctor w (labelMin w) = labelMax w
    ∧ faceToDiagFunctor w (labelMax w) = labelMin w := by
  have h := faceToDiag_exact_mem w n hlo hhi
  have hmin : labelMin w ≤ labelMax w := by
    unfold labelMin labelMax
    have hpos : (0 : Int) < 2 ^ (w - 1) := by positivity
    omega
  refine ⟨h, faceToDiagFunctor_exact w hw n hlo hhi, ?_, ?_, ?_⟩
  · rw [faceToDiagFunctor_exact w hw n hlo hhi, faceToDiagFunctor_exact w hw _ h.1 h.2]
    ring
  · rw [faceToDiagFunctor_exact w hw _ (le_refl _) hmin]
    unfold labelMin labelMax
    ring
  · rw [faceToDiagFunctor_exact w hw _ hmin (le_refl _)]
    unfold labelMin labelMax
    ring

/-- Witness of C25: the most negative 32-bit label. -/
theorem faceToDiagFunctor_involution_witness :
    faceToDiagFunctor 32 (-2147483648) = 2147483647
    ∧ faceToDiagFunctor 32 (faceToDiagFunctor 32 (-2147483648)) = -2147483648 :=
  ⟨by decide,
    (faceToDiagFunctor_involution 32 (by decide) (-2147483648) (by decide) (by decide)).2.2.1⟩

/-- C26: for every label `x` exactly one of `luGAMGNonNegative(x)` and
`luGAMGNegative(x)` is true; and for a `label` of `w ≥ 1` bits `faceToDiagFunctor`
exchanges the two classes: `luGAMGNegative(x)` holds if and only if
`luGAMGNonNegative(faceToDiagFunctor(x))` holds, and `luGAMGNonNegative(x)` if and only
if `luGAMGNegative(faceToDiagFunctor(x))`; `-1` decodes to `0`. -/
theorem luGAMG_sign_classes (w : Nat) (hw : 1 ≤ w) (x : Int)
    (hlo : labelMin w ≤ x) (hhi : x ≤ labelMax w) :
    ((luGAMGNonNegative x = true ∧ luGAMGNegative x = false)
      ∨ (luGAMGNonNegative x = false ∧ luGAMGNegative x = true))
    ∧ (luGAMGNegative x = true ↔ luGAMGNonNegative (faceToDiagFunctor w x) = true)
    ∧ (luGAMGNonNegative x = true ↔ luGAMGNegative (faceToDiagFunctor w x) = true)
    ∧ faceToDiagFunctor w (-1) = 0 := by
  have hm1 : labelMin w ≤ -1 ∧ (-1 : Int) ≤ labelMax w := by
    unfold labelMin labelMax
    have hpos : (0 : Int) < 2 ^ (w - 1) := by positivity
    constructor <;> omega
  rw [faceToDiagFunctor_exact w hw x hlo hhi, faceToDiagFunctor_exact w hw (-1) hm1.1 hm1.2]
  unfold luGAMGNonNegative luGAMGNegative
  simp only [decide_eq_true_eq, decide_eq_false_iff_not]
  refine ⟨?_, ?_, ?_, by norm_num⟩
  · by_cases h : 0 ≤ x
    · exact Or.inl ⟨h, by omega⟩
    · exact Or.inr ⟨by omega, by omega⟩
  · constructor <;> intro h <;> omega
  · constructor <;> intro h <;> omega

/-- Witness of C26: the 32-bit label `-5` is negative and decodes to the index `4`. -/
theorem luGAMG_sign_classes_witness :
    (luGAMGNegative (-5) = true ↔ luGAMGNonNegative (faceToDiagFunctor 32 (-5)) = true)
    ∧ faceToDiagFunctor 32 (-5) = 4 :=
  ⟨(luGAMG_sign_classes 32 (by decide) (-5) (by decide) (by decide)).2.1, by decide⟩

end Foam
